import Mathlib

/-!
Verification of the regex → minimal-Dfa compiler in `Laboratorio#4.py`
(class `RegexToDFA`): infix-to-postfix translation with explicit
concatenation, syntax-tree construction with position assignment,
nullable/firstpos/lastpos/followpos attribute evaluation, direct Dfa
construction, partition-refinement minimization, and string simulation.

Modelling conventions:
* Python `dict`s keyed by `(state, symbol)` are association lists
  (`List ((Nat × Char) × Nat)`) in insertion order; `dinsert` mirrors the
  overwrite-in-place semantics of `d[k] = v`, `tlookup` mirrors `d[k]`.
* Python `set`s / `frozenset`s of positions or state ids are `Finset ℕ`
  (extensional equality, exactly like `frozenset` equality).
* Python set iteration order is unspecified; where the code iterates over a
  set only to accumulate an order-insensitive result (unions, dict values
  that do not depend on order) we use `Finset` operations; where iteration
  order is observable (the alphabet driving state-id assignment) we fix the
  deterministic order produced by `List.dedup` of the expression's characters.
* Unbounded `while` loops take an explicit fuel argument and return `none`
  when it runs out; every theorem about a loop's output is conditioned on
  the loop having returned, and witnesses compute concrete successful runs.
* Python exceptions (`ValueError`, `KeyError`) are modelled by
  `Except String` / `Option` results.
-/

/-! ### Association-list dictionaries (`dict[(state, symbol)] = state`) -/

/-- Lookup in a `(state, symbol) ↦ state` dictionary: first matching entry. -/
def tlookup (l : List ((Nat × Char) × Nat)) (k : Nat × Char) : Option Nat :=
  (l.find? (fun e => e.1 = k)).map (fun e => e.2)

/-- `d[k] = v` on a Python dict kept as an insertion-ordered association
list: overwrite the entry in place when the key is present, else append. -/
def dinsert (l : List ((Nat × Char) × Nat)) (k : Nat × Char) (v : Nat) :
    List ((Nat × Char) × Nat) :=
  if l.any (fun e => e.1 = k) then
    l.map (fun e => if e.1 = k then (k, v) else e)
  else l ++ [(k, v)]

/-- Index of a position-set in the interning list `states`
(`states[frozenset] = id`, ids are assigned densely in insertion order, so
the id of a member is its list index). -/
def lidx (x : Finset Nat) : List (Finset Nat) → Nat
  | [] => 0
  | y :: ys => if y = x then 0 else lidx x ys + 1

/-! ### Syntax trees (`Node`)

Python `Node` objects have `data`, optional `left`/`right` children and an
optional `position`.  `build_syntax_tree` only ever creates leaves (no
children), unary nodes (`left` only, for `*`, `+`, `?`) and binary nodes
(both children, for `|`, `·`), so the tree type has those three shapes. -/

inductive RNode where
  | leaf (data : Char) (position : Option Nat)
  | unary (data : Char) (left : RNode)
  | binary (data : Char) (left : RNode) (right : RNode)
deriving DecidableEq

/-- The attributes `calculate_tree_properties` stores on each node.
`nullable` is `Option Bool` because `Node.nullable` is initialized to
`None` and the `elif` chain assigns no value to node kinds it does not
recognize. -/
structure Attrs where
  nullable : Option Bool
  firstpos : Finset Nat
  lastpos : Finset Nat
deriving DecidableEq

/-- A syntax tree whose nodes carry the attributes written by
`calculate_tree_properties` (the Python code mutates the `Node`s in
place; we model the pass as producing an annotated copy). -/
inductive ATree where
  | leaf (data : Char) (position : Option Nat) (a : Attrs)
  | unary (data : Char) (left : ATree) (a : Attrs)
  | binary (data : Char) (left : ATree) (right : ATree) (a : Attrs)
deriving DecidableEq

def attrsOf : ATree → Attrs
  | .leaf _ _ a => a
  | .unary _ _ a => a
  | .binary _ _ _ a => a

def dataOf : ATree → Char
  | .leaf d _ _ => d
  | .unary d _ _ => d
  | .binary d _ _ _ => d

/-- The left child (`node.left`), when present. -/
def leftOf : ATree → Option ATree
  | .leaf _ _ _ => none
  | .unary _ l _ => some l
  | .binary _ l _ _ => some l

/-- All nodes of an annotated tree (the node itself and its descendants). -/
def subtreesA : ATree → List ATree
  | .leaf d p a => [.leaf d p a]
  | .unary d l a => .unary d l a :: subtreesA l
  | .binary d l r a => .binary d l r a :: (subtreesA l ++ subtreesA r)

/-! ### `RegexToDFA.__init__` -/

/-- `self.alphabet = set(char for char in regex if char not in '()*|+?·#')`.
Python set iteration order is unspecified; we fix the duplicate-free order
given by `List.dedup`. -/
def alphabet_of (regex : List Char) : List Char :=
  (regex.filter (fun c =>
    ¬(c = '(' ∨ c = ')' ∨ c = '*' ∨ c = '|' ∨ c = '+' ∨ c = '?' ∨ c = '·' ∨ c = '#'))).dedup

/-- `self.augmented_regex = f"({regex})#"` -/
def augmented (regex : List Char) : List Char :=
  '(' :: regex ++ [')', '#']

/-! ### `infix_to_postfix` -/

/-- Explicit-concatenation insertion: between adjacent characters `c1, c2`,
insert `·` when `c1 not in '(|'` and `c2 not in ')|*+?'`. -/
def addConcat : List Char → List Char
  | [] => []
  | [c] => [c]
  | c1 :: c2 :: rest =>
    if ¬(c1 = '(' ∨ c1 = '|') ∧
       ¬(c2 = ')' ∨ c2 = '|' ∨ c2 = '*' ∨ c2 = '+' ∨ c2 = '?') then
      c1 :: '·' :: addConcat (c2 :: rest)
    else
      c1 :: addConcat (c2 :: rest)

/-- `precedence = {'|': 1, '·': 2, '*': 3, '+': 3, '?': 3}`, with
`precedence.get(c, 0)` returning 0 for other characters (such as `(`). -/
def prec (c : Char) : Nat :=
  if c = '|' then 1
  else if c = '·' then 2
  else if c = '*' ∨ c = '+' ∨ c = '?' then 3
  else 0

/-- On `)`: pop and emit until the matching `(`, which is discarded (if the
stack empties without finding one, everything was emitted). The operator
stack is kept head-first (head = top). -/
def popUntilParen : List Char → List Char × List Char
  | [] => ([], [])
  | c :: s =>
    if c = '(' then ([], s)
    else
      let r := popUntilParen s
      (c :: r.1, r.2)

/-- On an operator: pop and emit while the stack top is a non-`(` operator
of precedence ≥ the incoming operator's. -/
def popWhileGe (p : Nat) : List Char → List Char × List Char
  | [] => ([], [])
  | c :: s =>
    if ¬(c = '(') ∧ prec c ≥ p then
      let r := popWhileGe p s
      (c :: r.1, r.2)
    else ([], c :: s)

/-- The shunting-yard loop of `infix_to_postfix` (after explicit
concatenation has been inserted); remaining stack contents are emitted in
pop order at the end. -/
def shuntLoop : List Char → List Char → List Char → List Char
  | [], out, stack => out ++ stack
  | c :: rest, out, stack =>
    if ¬(c = '(' ∨ c = ')' ∨ c = '|' ∨ c = '*' ∨ c = '+' ∨ c = '?' ∨ c = '·') then
      shuntLoop rest (out ++ [c]) stack
    else if c = '(' then
      shuntLoop rest out (c :: stack)
    else if c = ')' then
      let r := popUntilParen stack
      shuntLoop rest (out ++ r.1) r.2
    else
      let r := popWhileGe (prec c) stack
      shuntLoop rest (out ++ r.1) (c :: r.2)

/-- `infix_to_postfix` (named after its algorithm to keep identifiers
simple): explicit concatenation insertion followed by shunting-yard. -/
def shuntingYard (regex : List Char) : List Char :=
  shuntLoop (addConcat regex) [] []

/-! ### `build_syntax_tree` -/

def errInvalid : String := "Expresion invalida"

/-- The token-consumption loop of `build_syntax_tree`: stack of nodes
(head = top), position counter `np` (starts at 1) and the insertion-ordered
`pos_to_symbol` table.  Unary operators pop one node, binary operators pop
two (first pop is the right operand), other characters become leaves and
non-`ε` leaves get the next position.  Errors exactly on operator-stack
underflow and on a final stack size other than one. -/
def buildGo : List Char → List RNode → Nat → List (Nat × Char) →
    Except String (RNode × Nat × List (Nat × Char))
  | [], stack, np, tab =>
    match stack with
    | [t] => .ok (t, np, tab)
    | _ => .error errInvalid
  | c :: rest, stack, np, tab =>
    if c = '*' ∨ c = '+' ∨ c = '?' then
      match stack with
      | [] => .error errInvalid
      | top :: s => buildGo rest (.unary c top :: s) np tab
    else if c = '|' ∨ c = '·' then
      match stack with
      | b :: a :: s => buildGo rest (.binary c a b :: s) np tab
      | _ => .error errInvalid
    else if c = 'ε' then
      buildGo rest (.leaf c none :: stack) np tab
    else
      buildGo rest (.leaf c (some np) :: stack) (np + 1) (tab ++ [(np, c)])

def build_syntax_tree (toks : List Char) :
    Except String (RNode × Nat × List (Nat × Char)) :=
  buildGo toks [] 1 []

/-! ### `calculate_tree_properties`

Python truthiness of the `Option Bool` attribute: `None` and `False` are
falsy.  `pyOr`/`pyAnd` are Python's `or`/`and` on such values (they return
the first operand when it decides the result, the second otherwise). -/

def truthy : Option Bool → Bool
  | some true => true
  | _ => false

def pyOr (a b : Option Bool) : Option Bool :=
  if truthy a then a else b

def pyAnd (a b : Option Bool) : Option Bool :=
  if truthy a then b else a

/-- The post-order attribute pass.  Per node, each attribute follows the
source's `if`/`elif` chain; branches that cannot apply to a node of the
given shape (e.g. the `'|'` case on a childless leaf, which would crash
Python) are dropped, and a chain that falls through leaves the `Node`
defaults (`nullable = None`, `firstpos = lastpos = set()`). -/
def annotate (alph : List Char) : RNode → ATree
  | .leaf d p =>
    let nb : Option Bool :=
      if d = 'ε' then some true
      else if d ∈ alph ∨ d = '#' then some false
      else none
    let fp : Finset Nat :=
      if d = 'ε' then ∅
      else if d ∈ alph ∨ d = '#' then
        (match p with | some q => {q} | none => ∅)
      else ∅
    .leaf d p ⟨nb, fp, fp⟩
  | .unary d c =>
    let ac := annotate alph c
    let a := attrsOf ac
    let nb : Option Bool :=
      if d = '*' ∨ d = '?' then some true
      else if d = '+' then a.nullable
      else none
    let fp : Finset Nat :=
      if d = '*' ∨ d = '+' ∨ d = '?' then a.firstpos else ∅
    let lp : Finset Nat :=
      if d = '*' ∨ d = '+' ∨ d = '?' then a.lastpos else ∅
    .unary d ac ⟨nb, fp, lp⟩
  | .binary d l r =>
    let al := annotate alph l
    let ar := annotate alph r
    let aa := attrsOf al
    let ab := attrsOf ar
    let nb : Option Bool :=
      if d = '|' then pyOr aa.nullable ab.nullable
      else if d = '·' then pyAnd aa.nullable ab.nullable
      else none
    let fp : Finset Nat :=
      if d = '|' then aa.firstpos ∪ ab.firstpos
      else if d = '·' then
        (if truthy aa.nullable then aa.firstpos ∪ ab.firstpos else aa.firstpos)
      else ∅
    let lp : Finset Nat :=
      if d = '|' then aa.lastpos ∪ ab.lastpos
      else if d = '·' then
        (if truthy ab.nullable then aa.lastpos ∪ ab.lastpos else ab.lastpos)
      else ∅
    .binary d al ar ⟨nb, fp, lp⟩

/-! ### `calculate_followpos` -/

/-- `for i in idxs: followpos[i] |= add` (iteration over a set whose order
does not affect the resulting table). -/
def addAll (fp : Nat → Finset Nat) (idxs add : Finset Nat) : Nat → Finset Nat :=
  fun p => if p ∈ idxs then fp p ∪ add else fp p

/-- The followpos traversal: at each node apply the `·` rule, then the
`*`/`+` rule, then recurse into the left child, then the right.  Leaves
have no children and trigger neither rule.  (A `·`-labelled unary node
would crash Python's `node.right.firstpos`; the builder never creates
one, so that branch is dropped.) -/
def calc_followpos : ATree → (Nat → Finset Nat) → Nat → Finset Nat
  | .leaf _ _ _, fp => fp
  | .unary d c a, fp =>
    let fp2 := if d = '*' ∨ d = '+' then addAll fp a.lastpos a.firstpos else fp
    calc_followpos c fp2
  | .binary d l r a, fp =>
    let fp1 := if d = '·' then addAll fp (attrsOf l).lastpos (attrsOf r).firstpos else fp
    let fp2 := if d = '*' ∨ d = '+' then addAll fp1 a.lastpos a.firstpos else fp1
    calc_followpos r (calc_followpos l fp2)

/-! ### `parse_regex` -/

/-- The state `parse_regex` leaves on the object: alphabet, annotated
syntax tree, `pos_to_symbol` and `followpos`. -/
structure Parsed where
  alphabet : List Char
  root : ATree
  table : List (Nat × Char)
  followpos : Nat → Finset Nat

def parse_regex (regex : List Char) : Except String Parsed :=
  match build_syntax_tree (shuntingYard (augmented regex)) with
  | .error e => .error e
  | .ok (root, _, tab) =>
    let art := annotate (alphabet_of regex) root
    .ok ⟨alphabet_of regex, art, tab, calc_followpos art (fun _ => ∅)⟩

/-! ### `construct_dfa` -/

/-- The automaton record (`self.dfa` / `self.minimized_dfa`):
`{'states': n, 'initial': i, 'final_states': F, 'transitions': δ}`. -/
structure Dfa where
  states : Nat
  initial : Nat
  final_states : Finset Nat
  transitions : List ((Nat × Char) × Nat)
deriving DecidableEq

def errNoDfa : String := "Primero debe construir el Dfa"

def errNoEnd : String := "No se encontro el simbolo de fin"

def errFuel : String := "fuel exhausted"

/-- `Move(state, symbol)`: the union of `followpos[p]` over the positions
`p` of the state whose `pos_to_symbol.get(p)` equals the symbol. -/
def MoveSet (p2s : List (Nat × Char)) (fp : Nat → Finset Nat)
    (S : Finset Nat) (sym : Char) : Finset Nat :=
  S.biUnion (fun p =>
    if (p2s.find? (fun e => e.1 = p)).map (fun e => e.2) = some sym then fp p else ∅)

/-- The `for symbol in self.alphabet` body of the construction loop: for
each symbol compute the move; skip it when empty; intern the destination
set when new (appending it to both the state list and the worklist); record
the transition `(id of current, symbol) ↦ id of destination`. -/
def symLoop (p2s : List (Nat × Char)) (fp : Nat → Finset Nat)
    (cur : Finset Nat) (ci : Nat) :
    List Char → List (Finset Nat) → List (Finset Nat) →
    List ((Nat × Char) × Nat) →
    List (Finset Nat) × List (Finset Nat) × List ((Nat × Char) × Nat)
  | [], seen, q, tr => (seen, q, tr)
  | s :: syms, seen, q, tr =>
    let mv := MoveSet p2s fp cur s
    if mv = ∅ then symLoop p2s fp cur ci syms seen q tr
    else
      let seen2 := if mv ∈ seen then seen else seen ++ [mv]
      let q2 := if mv ∈ seen then q else q ++ [mv]
      let tr2 := dinsert tr (ci, s) (lidx mv seen2)
      symLoop p2s fp cur ci syms seen2 q2 tr2

/-- The `while unmarked_states` loop: pop the front state, mark it final
when it contains the end position, then run the symbol loop.  Fuel bounds
the number of iterations; `none` models non-termination within the given
fuel (the loop always terminates in Python: the state universe is the
finite powerset of positions). -/
def constructLoop (p2s : List (Nat × Char)) (fp : Nat → Finset Nat)
    (alph : List Char) (endPos : Nat) :
    Nat → List (Finset Nat) → List (Finset Nat) →
    List ((Nat × Char) × Nat) → Finset Nat →
    Option (List (Finset Nat) × List ((Nat × Char) × Nat) × Finset Nat)
  | _, seen, [], tr, fins => some (seen, tr, fins)
  | 0, _, _ :: _, _, _ => none
  | fuel + 1, seen, cur :: rest, tr, fins =>
    let ci := lidx cur seen
    let fins2 := if endPos ∈ cur then insert ci fins else fins
    let r := symLoop p2s fp cur ci alph seen rest tr
    constructLoop p2s fp alph endPos fuel r.1 r.2.1 r.2.2 fins2

/-- `construct_dfa`: locate the end-marker position (the first entry of
`pos_to_symbol` whose symbol is `#`; `ValueError` when absent), run the
worklist loop from `{root.firstpos: 0}`, and package the automaton. -/
def construct_dfa (alph : List Char) (p2s : List (Nat × Char))
    (fp : Nat → Finset Nat) (rootFirst : Finset Nat) (fuel : Nat) :
    Except String Dfa :=
  match p2s.find? (fun e => e.2 = '#') with
  | none => .error errNoEnd
  | some e =>
    match constructLoop p2s fp alph e.1 fuel [rootFirst] [rootFirst] [] ∅ with
    | none => .error errFuel
    | some (seen, tr, fins) => .ok ⟨seen.length, 0, fins, tr⟩

/-! ### `minimize_dfa` -/

/-- Whether `(q, a)` has a recorded transition landing in `S`. -/
def predMem (tr : List ((Nat × Char) × Nat)) (S : Finset Nat) (a : Char)
    (q : Nat) : Bool :=
  match tlookup tr (q, a) with
  | some d => decide (d ∈ S)
  | none => false

/-- Predecessors of `S` under `symbol`:
`{state < n | (state, symbol) in transitions and transitions[(state, symbol)] in S}`. -/
def preds (tr : List ((Nat × Char) × Nat)) (n : Nat) (S : Finset Nat)
    (a : Char) : Finset Nat :=
  (Finset.range n).filter (fun q => predMem tr S a q = true)

/-- The `for partition in partitions` refinement body for one computed
predecessor set: split every block cut by `pr`; when the block was pending
in the workset replace it there by both pieces, otherwise enqueue only the
smaller piece. -/
def splitAll (pr : Finset Nat) :
    List (Finset Nat) → List (Finset Nat) →
    List (Finset Nat) × List (Finset Nat)
  | [], w => ([], w)
  | b :: rest, w =>
    let inter := b ∩ pr
    let diff := b \ pr
    if ¬inter = ∅ ∧ ¬diff = ∅ then
      let w1 :=
        if b ∈ w then (w.erase b) ++ [inter, diff]
        else if inter.card ≤ diff.card then w ++ [inter] else w ++ [diff]
      let r := splitAll pr rest w1
      (inter :: diff :: r.1, r.2)
    else
      let r := splitAll pr rest w
      (b :: r.1, r.2)

/-- `for symbol in self.alphabet`: refine the whole partition against the
predecessors of the popped set under each symbol in turn. -/
def refineSyms (tr : List ((Nat × Char) × Nat)) (n : Nat) (cur : Finset Nat) :
    List Char → List (Finset Nat) → List (Finset Nat) →
    List (Finset Nat) × List (Finset Nat)
  | [], p, w => (p, w)
  | a :: syms, p, w =>
    let r := splitAll (preds tr n cur a) p w
    refineSyms tr n cur syms r.1 r.2

/-- The `while workset` loop, with fuel. -/
def refineLoop (tr : List ((Nat × Char) × Nat)) (n : Nat) (alph : List Char) :
    Nat → List (Finset Nat) → List (Finset Nat) → Option (List (Finset Nat))
  | _, p, [] => some p
  | 0, _, _ :: _ => none
  | fuel + 1, p, cur :: w =>
    let r := refineSyms tr n cur alph p w
    refineLoop tr n alph fuel r.1 r.2

/-- `state_mapping[q]`: the index of the last partition block containing
`q` (Python writes `state_mapping[state] = i` for every block in order, so
a later block would win; blocks are disjoint, making the index unique).
`none` models the `KeyError` raised when `q` lies in no block. -/
def smap (p : List (Finset Nat)) (q : Nat) : Option Nat :=
  match p with
  | [] => none
  | b :: rest =>
    match smap rest q with
    | some j => some (j + 1)
    | none => if q ∈ b then some 0 else none

/-- `minimize_dfa`: seed the partition with the non-final and final states
(dropping an empty side), refine to a fixed point, then rebuild the
automaton through the block mapping.  Python raises `KeyError` when a
state mentioned by `transitions`/`final_states`/`initial` lies in no
block; this is modelled by the up-front `isSome` checks returning `none`. -/
def minimize_dfa (alph : List Char) (d : Dfa) (fuel : Nat) : Option Dfa :=
  let nonF := Finset.range d.states \ d.final_states
  let parts0 := [nonF, d.final_states].filter (fun p => ¬p = ∅)
  match refineLoop d.transitions d.states alph fuel parts0 parts0 with
  | none => none
  | some p =>
    if (∀ e ∈ d.transitions, (smap p e.1.1).isSome ∧ (smap p e.2).isSome) ∧
       (∀ f ∈ d.final_states, (smap p f).isSome) ∧ (smap p d.initial).isSome then
      some
        { states := p.length
          initial := (smap p d.initial).getD 0
          final_states := d.final_states.image (fun f => (smap p f).getD 0)
          transitions :=
            d.transitions.foldl
              (fun acc e =>
                dinsert acc ((smap p e.1.1).getD 0, e.1.2) ((smap p e.2).getD 0))
              [] }
    else none

/-! ### `simulate_dfa` -/

/-- The character-consumption loop of `simulate_dfa`: reject when the
character is outside the alphabet or has no transition; after the whole
string, accept exactly on a final state. -/
def walk (alph : List Char) (tr : List ((Nat × Char) × Nat))
    (fins : Finset Nat) : Nat → List Char → Bool
  | q, [] => q ∈ fins
  | q, c :: w =>
    if c ∈ alph then
      match tlookup tr (q, c) with
      | some q2 => walk alph tr fins q2 w
      | none => false
    else false

/-- Simulation of a chosen automaton record from its initial state. -/
def simulate_core (alph : List Char) (d : Dfa) (w : List Char) : Bool :=
  walk alph d.transitions d.final_states d.initial w

/-- `simulate_dfa(input, minimized)` including the automaton-selection
logic: prefer the minimized automaton when requested and built, fall back
to the direct one, raise when neither exists. -/
def simulate_dfa (alph : List Char) (mdfa dfa : Option Dfa)
    (minimized : Bool) (w : List Char) : Except String Bool :=
  match minimized, mdfa, dfa with
  | true, some m, _ => .ok (simulate_core alph m w)
  | true, none, some d => .ok (simulate_core alph d w)
  | true, none, none => .error errNoDfa
  | false, _, some d => .ok (simulate_core alph d w)
  | false, _, none => .error errNoDfa

/-! ### `process`: the full pipeline -/

/-- The object state after `process()` (parse, construct, minimize). -/
structure Compiled where
  alphabet : List Char
  root : ATree
  table : List (Nat × Char)
  followpos : Nat → Finset Nat
  dfa : Dfa
  minimized : Dfa

def process (regex : List Char) (fuel1 fuel2 : Nat) : Except String Compiled :=
  match parse_regex regex with
  | .error e => .error e
  | .ok pr =>
    match construct_dfa pr.alphabet pr.table pr.followpos (attrsOf pr.root).firstpos fuel1 with
    | .error e => .error e
    | .ok d =>
      match minimize_dfa pr.alphabet d fuel2 with
      | none => .error errFuel
      | some md => .ok ⟨pr.alphabet, pr.root, pr.table, pr.followpos, d, md⟩

/-! ### Specification-side auxiliary definitions used by the theorems -/

/-- The condition under which `infix_to_postfix` inserts `·` between
adjacent characters `c1, c2` (the same condition `addConcat` tests). -/
def ccond (c1 c2 : Char) : Prop :=
  ¬(c1 = '(' ∨ c1 = '|') ∧
  ¬(c2 = ')' ∨ c2 = '|' ∨ c2 = '*' ∨ c2 = '+' ∨ c2 = '?')

instance (c1 c2 : Char) : Decidable (ccond c1 c2) := by
  unfold ccond; infer_instance

/-- `buildGo` without its error checks: the same stack machine, returning
the final stack whatever its size, and `none` exactly on operand-stack
underflow.  Used to state that `build_syntax_tree` returns the single
remaining node precisely when the run leaves one node. -/
def buildRun : List Char → List RNode → Nat → List (Nat × Char) →
    Option (List RNode × Nat × List (Nat × Char))
  | [], stack, np, tab => some (stack, np, tab)
  | c :: rest, stack, np, tab =>
    if c = '*' ∨ c = '+' ∨ c = '?' then
      match stack with
      | [] => none
      | top :: s => buildRun rest (.unary c top :: s) np tab
    else if c = '|' ∨ c = '·' then
      match stack with
      | b :: a :: s => buildRun rest (.binary c a b :: s) np tab
      | _ => none
    else if c = 'ε' then
      buildRun rest (.leaf c none :: stack) np tab
    else
      buildRun rest (.leaf c (some np) :: stack) (np + 1) (tab ++ [(np, c)])

/-- Stack-depth bookkeeping of the tree builder: a unary operator needs a
nonempty stack, a binary operator needs at least two entries (net −1), a
symbol pushes one, and exactly one node must remain at the end. -/
def depthOk : List Char → Nat → Bool
  | [], d => decide (d = 1)
  | c :: rest, d =>
    if c = '*' ∨ c = '+' ∨ c = '?' then decide (1 ≤ d) && depthOk rest d
    else if c = '|' ∨ c = '·' then decide (2 ≤ d) && depthOk rest (d - 1)
    else depthOk rest (d + 1)

/-- Tokens that receive a position in `build_syntax_tree`: anything that is
neither a unary operator, a binary operator, nor `ε`. -/
def isPosTok (c : Char) : Prop :=
  ¬(c = '*' ∨ c = '+' ∨ c = '?') ∧ ¬(c = '|' ∨ c = '·') ∧ ¬(c = 'ε')

instance (c : Char) : Decidable (isPosTok c) := by
  unfold isPosTok; infer_instance

/-- The positioned leaves of a tree in left-to-right order, with their
symbols (left-to-right tree order is postfix-consumption order). -/
def posLeaves : RNode → List (Nat × Char)
  | .leaf c (some p) => [(p, c)]
  | .leaf _ none => []
  | .unary _ l => posLeaves l
  | .binary _ l r => posLeaves l ++ posLeaves r

/-- The positioned leaves carried by a builder stack, bottom to top. -/
def stackLeaves (stack : List RNode) : List (Nat × Char) :=
  (stack.reverse.map posLeaves).flatten

/-- Specification-side path semantics of the simulator: `Walks alph tr q w qf`
holds when the automaton can consume `w` from `q` ending in `qf`, every
character being in the alphabet and every step a recorded transition. -/
inductive Walks (alph : List Char) (tr : List ((Nat × Char) × Nat)) :
    Nat → List Char → Nat → Prop
  | nil (q : Nat) : Walks alph tr q [] q
  | cons {q c q2 w qf} : c ∈ alph → tlookup tr (q, c) = some q2 →
      Walks alph tr q2 w qf → Walks alph tr q (c :: w) qf

/-- A block `C` cannot be split by the predecessors of `X` under `a`:
it lies inside them or misses them entirely. -/
def IsStable (tr : List ((Nat × Char) × Nat)) (n : Nat)
    (C X : Finset Nat) (a : Char) : Prop :=
  C ⊆ preds tr n X a ∨ C ∩ preds tr n X a = ∅

/-- Sets derivable from a family by removing a derivable subset or joining
two disjoint derivable sets.  Stability against every member of the family
extends to every derivable set, which is how the pending-workset invariant
of the refinement loop yields stability against every final block. -/
inductive Deriv (fam : Set (Finset Nat)) : Finset Nat → Prop
  | mem {X} : X ∈ fam → Deriv fam X
  | sdiff {X Y} : Deriv fam X → Deriv fam Y → Y ⊆ X → Deriv fam (X \ Y)
  | disjUnion {X Y} : Deriv fam X → Deriv fam Y → Disjoint X Y → Deriv fam (X ∪ Y)

/-- Structural invariant of the refinement loop's partition list:
nonempty, pairwise-disjoint blocks of `range n`, covering it, each block
entirely final or entirely non-final. -/
structure PartOK (n : Nat) (F : Finset Nat) (p : List (Finset Nat)) : Prop where
  nonempty : ∀ b ∈ p, b ≠ ∅
  disj : p.Pairwise (fun x y => Disjoint x y)
  subRange : ∀ b ∈ p, b ⊆ Finset.range n
  cover : ∀ q, q < n → ∃ b ∈ p, q ∈ b
  homog : ∀ b ∈ p, b ⊆ F ∨ b ∩ F = ∅

/-! ### Concrete compilation runs used by witnesses and counterexamples -/

def junkAttrs : Attrs := ⟨none, ∅, ∅⟩

def junkTree : ATree := .leaf 'x' none junkAttrs

def junkDfa : Dfa := ⟨0, 0, ∅, []⟩

def junkCompiled : Compiled := ⟨[], junkTree, [], fun _ => ∅, junkDfa, junkDfa⟩

/-- The compiled pipeline for `"(a|b)*abb"` (the spec's classic example). -/
def comp3 : Compiled :=
  match process "(a|b)*abb".toList 100 100 with
  | .ok c => c
  | .error _ => junkCompiled

/-- The compiled pipeline for `"a"`. -/
def compA : Compiled :=
  match process "a".toList 100 100 with
  | .ok c => c
  | .error _ => junkCompiled

/-- The parse of `"a"` (alphabet `['a']`, table `[(1,'a'),(2,'#')]`). -/
def prA : Parsed :=
  match parse_regex "a".toList with
  | .ok pr => pr
  | .error _ => ⟨[], junkTree, [], fun _ => ∅⟩

/-- The compiled pipeline for `"ε"` (whose alphabet contains `ε`). -/
def compEps : Compiled :=
  match process "ε".toList 100 100 with
  | .ok c => c
  | .error _ => junkCompiled

/-- The attribute-evaluated syntax tree for `"(ab)*"` (whose star node has
`firstpos = {1}` but `lastpos = {2}`). -/
def c2root : ATree :=
  match parse_regex "(ab)*".toList with
  | .ok pr => pr.root
  | .error _ => junkTree


/-! ## Theorems -/

/-! ### The explicit-concatenation pass (C6) -/

theorem addConcat_cons (c : Char) (l : List Char) :
    addConcat (c :: l) = c :: (List.zip (c :: l) l).flatMap
      (fun p => (if ccond p.1 p.2 then ['·'] else []) ++ [p.2]) := by
  induction l generalizing c with
  | nil => rfl
  | cons c2 rest ih =>
    rw [addConcat.eq_def]
    by_cases h : ccond c c2
    · have h2 : ¬(c = '(' ∨ c = '|') ∧
          ¬(c2 = ')' ∨ c2 = '|' ∨ c2 = '*' ∨ c2 = '+' ∨ c2 = '?') := h
      simp only [if_pos h2, List.zip_cons_cons, List.flatMap_cons]
      rw [if_pos (show ccond c c2 from h), ih c2]
      simp
    · have h2 : ¬(¬(c = '(' ∨ c = '|') ∧
          ¬(c2 = ')' ∨ c2 = '|' ∨ c2 = '*' ∨ c2 = '+' ∨ c2 = '?')) := h
      simp only [if_neg h2, List.zip_cons_cons, List.flatMap_cons]
      rw [if_neg (show ¬ccond c c2 from h), ih c2]
      simp

/-- C6: the explicit-concatenation pass emits every character of the input
in order and inserts `·` between an adjacent pair `c1, c2` exactly when
`c1` is neither `(` nor `|` and `c2` is none of `)`, `|`, `*`, `+`, `?`
(the augmented expression starts with `(`, which is passed through first).
-/
theorem c6_explicit_concatenation (regex : List Char) :
    addConcat (augmented regex) =
      '(' :: (List.zip (augmented regex) ((augmented regex).drop 1)).flatMap
        (fun p => (if ccond p.1 p.2 then ['·'] else []) ++ [p.2]) := by
  have h : augmented regex = '(' :: (regex ++ [')', '#']) := rfl
  rw [h, addConcat_cons]
  rfl

/-! ### The syntax-tree builder's error behaviour (C7) -/

theorem buildGo_isOk (toks : List Char) :
    ∀ stack np tab, (buildGo toks stack np tab).isOk = depthOk toks stack.length := by
  induction toks with
  | nil =>
    intro stack np tab
    match stack with
    | [] => rfl
    | [t] => rfl
    | t :: u :: s => simp [buildGo, depthOk, Except.isOk, Except.toBool]
  | cons c rest ih =>
    intro stack np tab
    rw [buildGo.eq_def, depthOk.eq_def]
    by_cases h1 : c = '*' ∨ c = '+' ∨ c = '?'
    · simp only [if_pos h1]
      match stack with
      | [] => simp [Except.isOk, Except.toBool]
      | top :: s =>
        rw [ih]
        simp
    · simp only [if_neg h1]
      by_cases h2 : c = '|' ∨ c = '·'
      · simp only [if_pos h2]
        match stack with
        | [] => simp [Except.isOk, Except.toBool]
        | [t] => simp [Except.isOk, Except.toBool]
        | b :: a :: s =>
          rw [ih]
          simp
      · simp only [if_neg h2]
        by_cases h3 : c = 'ε'
        · simp only [if_pos h3, ih]
          simp
        · simp only [if_neg h3, ih]
          simp

theorem buildGo_run (toks : List Char) :
    ∀ stack np tab t np2 tab2,
      buildGo toks stack np tab = .ok (t, np2, tab2) ↔
        buildRun toks stack np tab = some ([t], np2, tab2) := by
  induction toks with
  | nil =>
    intro stack np tab t np2 tab2
    match stack with
    | [] => simp [buildGo, buildRun]
    | [u] => simp [buildGo, buildRun]
    | u :: v :: s => simp [buildGo, buildRun]
  | cons c rest ih =>
    intro stack np tab t np2 tab2
    rw [buildGo.eq_def, buildRun.eq_def]
    by_cases h1 : c = '*' ∨ c = '+' ∨ c = '?'
    · simp only [if_pos h1]
      match stack with
      | [] => simp
      | top :: s => exact ih _ _ _ _ _ _
    · simp only [if_neg h1]
      by_cases h2 : c = '|' ∨ c = '·'
      · simp only [if_pos h2]
        match stack with
        | [] => simp
        | [u] => simp
        | b :: a :: s => exact ih _ _ _ _ _ _
      · simp only [if_neg h2]
        by_cases h3 : c = 'ε'
        · simp only [if_pos h3]
          exact ih _ _ _ _ _ _
        · simp only [if_neg h3]
          exact ih _ _ _ _ _ _

/-- C7: the builder fails exactly when a unary operator meets an empty
stack, a binary operator meets a stack with fewer than two nodes, or the
final stack size differs from one (`depthOk` tracks precisely these three
conditions on the stack depth); on success it returns the single remaining
node of the run. -/
theorem c7_builder_errors (toks : List Char) :
    ((build_syntax_tree toks).isOk = depthOk toks 0) ∧
      (∀ t np2 tab2, build_syntax_tree toks = .ok (t, np2, tab2) ↔
        buildRun toks [] 1 [] = some ([t], np2, tab2)) := by
  refine ⟨buildGo_isOk toks [] 1 [], fun t np2 tab2 => buildGo_run toks [] 1 [] t np2 tab2⟩

/-! ### Pipeline decomposition helpers -/

theorem process_ok (regex : List Char) (f1 f2 : Nat) (comp : Compiled)
    (h : process regex f1 f2 = .ok comp) :
    ∃ pr, parse_regex regex = .ok pr ∧
      construct_dfa pr.alphabet pr.table pr.followpos (attrsOf pr.root).firstpos f1 =
        .ok comp.dfa ∧
      minimize_dfa pr.alphabet comp.dfa f2 = some comp.minimized ∧
      comp.alphabet = pr.alphabet ∧ comp.root = pr.root ∧ comp.table = pr.table ∧
      comp.followpos = pr.followpos := by
  unfold process at h
  split at h
  · exact absurd h (by simp)
  next pr hpr =>
    split at h
    · exact absurd h (by simp)
    next d hd =>
      split at h
      · exact absurd h (by simp)
      next md hmd =>
        have hc : comp = ⟨pr.alphabet, pr.root, pr.table, pr.followpos, d, md⟩ := by
          cases h
          rfl
        subst hc
        exact ⟨pr, hpr, hd, hmd, rfl, rfl, rfl, rfl⟩

theorem parse_ok (regex : List Char) (pr : Parsed)
    (h : parse_regex regex = .ok pr) :
    ∃ t np2, build_syntax_tree (shuntingYard (augmented regex)) = .ok (t, np2, pr.table) ∧
      pr.alphabet = alphabet_of regex ∧
      pr.root = annotate (alphabet_of regex) t ∧
      pr.followpos = calc_followpos pr.root (fun _ => ∅) := by
  unfold parse_regex at h
  split at h
  · exact absurd h (by simp)
  next root np tab hb =>
    have hc : pr = ⟨alphabet_of regex, annotate (alphabet_of regex) root, tab,
        calc_followpos (annotate (alphabet_of regex) root) (fun _ => ∅)⟩ := by
      cases h
      rfl
    subst hc
    exact ⟨root, np, hb, rfl, rfl, rfl⟩

/-! ### Position assignment (C8) -/

theorem stackLeaves_cons (n : RNode) (s : List RNode) :
    stackLeaves (n :: s) = stackLeaves s ++ posLeaves n := by
  simp [stackLeaves]

theorem buildGo_tables (toks : List Char) :
    ∀ stack np tab t np2 tab2,
      buildGo toks stack np tab = .ok (t, np2, tab2) →
      stackLeaves stack = tab → np = tab.length + 1 →
      posLeaves t = tab2 ∧
      tab2 = tab ++ (List.range' np (toks.filter (fun c => isPosTok c)).length).zip
        (toks.filter (fun c => isPosTok c)) ∧
      np2 = tab2.length + 1 := by
  induction toks with
  | nil =>
    intro stack np tab t np2 tab2 h hsl hnp
    match stack with
    | [] => exact absurd h (by simp [buildGo])
    | [u] =>
      have : u = t ∧ np = np2 ∧ tab = tab2 := by
        simpa [buildGo] using h
      obtain ⟨rfl, rfl, rfl⟩ := this
      refine ⟨?_, by simp, hnp⟩
      rw [← hsl, stackLeaves_cons]
      simp [stackLeaves]
    | u :: v :: s => exact absurd h (by simp [buildGo])
  | cons c rest ih =>
    intro stack np tab t np2 tab2 h hsl hnp
    rw [buildGo.eq_def] at h
    by_cases h1 : c = '*' ∨ c = '+' ∨ c = '?'
    · simp only [if_pos h1] at h
      match stack with
      | [] => exact absurd h (by simp)
      | top :: s =>
        have hfilter : (c :: rest).filter (fun c => isPosTok c) =
            rest.filter (fun c => isPosTok c) := by
          have : ¬isPosTok c := fun hc => hc.1 h1
          simp [List.filter_cons, this]
        rw [hfilter]
        refine ih _ _ _ _ _ _ h ?_ hnp
        rw [stackLeaves_cons, ← hsl, stackLeaves_cons]
        simp [posLeaves]
    · simp only [if_neg h1] at h
      by_cases h2 : c = '|' ∨ c = '·'
      · simp only [if_pos h2] at h
        match stack with
        | [] => exact absurd h (by simp)
        | [u] => exact absurd h (by simp)
        | b :: a :: s =>
          have hfilter : (c :: rest).filter (fun c => isPosTok c) =
              rest.filter (fun c => isPosTok c) := by
            have : ¬isPosTok c := fun hc => hc.2.1 h2
            simp [List.filter_cons, this]
          rw [hfilter]
          refine ih _ _ _ _ _ _ h ?_ hnp
          rw [stackLeaves_cons, ← hsl, stackLeaves_cons, stackLeaves_cons]
          simp [posLeaves]
      · simp only [if_neg h2] at h
        by_cases h3 : c = 'ε'
        · simp only [if_pos h3] at h
          have hfilter : (c :: rest).filter (fun c => isPosTok c) =
              rest.filter (fun c => isPosTok c) := by
            have : ¬isPosTok c := fun hc => hc.2.2 h3
            simp [List.filter_cons, this]
          rw [hfilter]
          refine ih _ _ _ _ _ _ h ?_ hnp
          rw [stackLeaves_cons, ← hsl]
          simp [posLeaves, h3]
        · simp only [if_neg h3] at h
          have hpt : isPosTok c := ⟨h1, h2, h3⟩
          have hfilter : (c :: rest).filter (fun c => isPosTok c) =
              c :: rest.filter (fun c => isPosTok c) := by
            simp [List.filter_cons, hpt]
          obtain ⟨hl, he, hn⟩ := ih _ _ _ _ _ _ h
            (by rw [stackLeaves_cons, ← hsl]; simp [posLeaves])
            (by simp [hnp])
          refine ⟨hl, ?_, hn⟩
          rw [he, hfilter]
          simp only [List.length_cons, List.range'_succ, List.zip_cons_cons]
          rw [hnp]
          simp

/-- C8: for every postfix token sequence the builder accepts, the
`pos_to_symbol` table lists exactly the positions `1..N` in order, paired
with the non-`ε` leaf tokens in postfix-consumption order (so position
assignment is a gap-free, duplicate-free enumeration), the positioned
leaves of the returned tree read off exactly that table (the bijection
onto leaf occurrences), and the table exposed by the full pipeline is the
builder's table unchanged. -/
theorem c8_positions (toks : List Char) :
    (∀ t np2 tab2, build_syntax_tree toks = .ok (t, np2, tab2) →
      tab2 = (List.range' 1 (toks.filter (fun c => isPosTok c)).length).zip
          (toks.filter (fun c => isPosTok c)) ∧
      posLeaves t = tab2) ∧
    (∀ regex f1 f2 comp, process regex f1 f2 = .ok comp →
      ∃ t np2, build_syntax_tree (shuntingYard (augmented regex)) =
        .ok (t, np2, comp.table)) := by
  constructor
  · intro t np2 tab2 h
    obtain ⟨hl, he, _⟩ := buildGo_tables toks [] 1 [] t np2 tab2 h rfl rfl
    rw [List.nil_append] at he
    exact ⟨he, by rw [hl]⟩
  · intro regex f1 f2 comp h
    obtain ⟨pr, hpr, -, -, -, -, htab, -⟩ := process_ok regex f1 f2 comp h
    obtain ⟨t, np2, hb, -, -, -⟩ := parse_ok regex pr hpr
    exact ⟨t, np2, by rw [htab]; exact hb⟩

theorem c8_witness :
    build_syntax_tree (shuntingYard (augmented "ab".toList)) =
      .ok (.binary '·' (.binary '·' (.leaf 'a' (some 1)) (.leaf 'b' (some 2)))
        (.leaf '#' (some 3)), 4, [(1, 'a'), (2, 'b'), (3, '#')]) ∧
    [(1, 'a'), (2, 'b'), (3, '#')] =
      (List.range' 1 ((shuntingYard (augmented "ab".toList)).filter
          (fun c => isPosTok c)).length).zip
        ((shuntingYard (augmented "ab".toList)).filter (fun c => isPosTok c)) := by
  refine ⟨by rfl, ?_⟩
  exact ((c8_positions (shuntingYard (augmented "ab".toList))).1 _ _ _ (by rfl)).1

/-! ### Attribute equations for repetition nodes (C2) -/

/-- C2 (amended): in the tree returned by the attribute evaluator, every
node of kind Star, Plus or Optional (a unary node labelled `*`, `+` or
`?`) stores `firstpos` equal to its child's `firstpos` and `lastpos`
equal to its child's **lastpos** (not the child's firstpos, as the spec
stated); `nullable` is `True` for Star and Optional and the child's
`nullable` for Plus. -/
theorem c2_repetition_attrs (alph : List Char) (t : RNode) :
    ∀ d c a, ATree.unary d c a ∈ subtreesA (annotate alph t) →
      (d = '*' ∨ d = '+' ∨ d = '?') →
      (a.firstpos = (attrsOf c).firstpos ∧ a.lastpos = (attrsOf c).lastpos) ∧
      ((d = '*' ∨ d = '?') → a.nullable = some true) ∧
      (d = '+' → a.nullable = (attrsOf c).nullable) := by
  induction t with
  | leaf d0 p =>
    intro d c a hmem hd
    exact absurd hmem (by simp [annotate, subtreesA])
  | unary d0 c0 ih =>
    intro d c a hmem hd
    simp only [annotate, subtreesA, List.mem_cons] at hmem
    rcases hmem with heq | htail
    · injection heq with hd0 hc0 ha0
      subst hd0
      subst hc0
      subst ha0
      refine ⟨⟨?_, ?_⟩, ?_, ?_⟩
      · show (if d = '*' ∨ d = '+' ∨ d = '?' then
            (attrsOf (annotate alph c0)).firstpos else ∅) = _
        rw [if_pos hd]
      · show (if d = '*' ∨ d = '+' ∨ d = '?' then
            (attrsOf (annotate alph c0)).lastpos else ∅) = _
        rw [if_pos hd]
      · intro hsq
        show (if d = '*' ∨ d = '?' then some true
            else if d = '+' then (attrsOf (annotate alph c0)).nullable else none) = _
        rw [if_pos hsq]
      · intro hplus
        have hno : ¬(d = '*' ∨ d = '?') := by
          rw [hplus]
          decide
        show (if d = '*' ∨ d = '?' then some true
            else if d = '+' then (attrsOf (annotate alph c0)).nullable else none) = _
        rw [if_neg hno, if_pos hplus]
    · exact ih d c a htail hd
  | binary d0 l0 r0 ihl ihr =>
    intro d c a hmem hd
    simp only [annotate, subtreesA, List.mem_cons, List.mem_append] at hmem
    rcases hmem with heq | hl | hr
    · exact absurd heq (by simp)
    · exact ihl d c a hl hd
    · exact ihr d c a hr hd

/-- The raw syntax tree built for `"(ab)*"`. -/
def c2raw : RNode :=
  match build_syntax_tree (shuntingYard (augmented "(ab)*".toList)) with
  | .ok (t, _, _) => t
  | .error _ => .leaf 'x' none

def c2star : ATree := (leftOf c2root).getD junkTree

def c2starChild : ATree := (leftOf c2star).getD junkTree

/-- C2 counterexample: in the attribute-evaluated tree the pipeline builds
for `"(ab)*"`, the Star node has `lastpos = {2}` while its child's
`firstpos = {1}`, so a repetition node's `lastpos` does **not** equal the
child's `firstpos` as the claim (and spec) state. -/
theorem c2_counterexample :
    (parse_regex "(ab)*".toList).isOk = true ∧
    (leftOf c2root).map dataOf = some '*' ∧
    (leftOf c2root).map (fun s => (attrsOf s).lastpos) = some {2} ∧
    ((leftOf c2root).bind leftOf).map (fun c => (attrsOf c).firstpos) = some {1} ∧
    ¬((leftOf c2root).map (fun s => (attrsOf s).lastpos) =
        ((leftOf c2root).bind leftOf).map (fun c => (attrsOf c).firstpos)) := by
  refine ⟨rfl, rfl, by decide, by decide, by decide⟩

theorem c2_witness :
    ATree.unary '*' c2starChild (attrsOf c2star) ∈
      subtreesA (annotate (alphabet_of "(ab)*".toList) c2raw) ∧
    (attrsOf c2star).firstpos = (attrsOf c2starChild).firstpos ∧
    (attrsOf c2star).lastpos = (attrsOf c2starChild).lastpos := by
  have hm : ATree.unary '*' c2starChild (attrsOf c2star) ∈
      subtreesA (annotate (alphabet_of "(ab)*".toList) c2raw) := by decide
  have h := c2_repetition_attrs (alphabet_of "(ab)*".toList) c2raw '*' c2starChild
    (attrsOf c2star) hm (Or.inl rfl)
  exact ⟨hm, h.1.1, h.1.2⟩

/-! ### The classic example `(a|b)*abb` (C3) -/

/-- C3 counterexample: the claim says the compiled minimized automaton for
`"(a|b)*abb"` accepts `"abbb"`, but the simulator rejects it (the language
requires the string to end in `abb`). -/
theorem c3_counterexample :
    process "(a|b)*abb".toList 100 100 = .ok comp3 ∧
    simulate_dfa comp3.alphabet (some comp3.minimized) (some comp3.dfa) true
      "abbb".toList = .ok false := by
  exact ⟨rfl, by rfl⟩

/-- C3 (amended): the fully compiled minimized automaton for
`"(a|b)*abb"` has exactly 4 states; the simulator accepts `"abb"`,
`"aabb"`, `"babb"` and rejects `"ab"`, `"abba"` — and also rejects
`"abbb"` (contrary to the claim's accept list). -/
theorem c3_classic_example :
    process "(a|b)*abb".toList 100 100 = .ok comp3 ∧
    comp3.minimized.states = 4 ∧
    simulate_dfa comp3.alphabet (some comp3.minimized) (some comp3.dfa) true
      "abb".toList = .ok true ∧
    simulate_dfa comp3.alphabet (some comp3.minimized) (some comp3.dfa) true
      "aabb".toList = .ok true ∧
    simulate_dfa comp3.alphabet (some comp3.minimized) (some comp3.dfa) true
      "babb".toList = .ok true ∧
    simulate_dfa comp3.alphabet (some comp3.minimized) (some comp3.dfa) true
      "ab".toList = .ok false ∧
    simulate_dfa comp3.alphabet (some comp3.minimized) (some comp3.dfa) true
      "abba".toList = .ok false ∧
    simulate_dfa comp3.alphabet (some comp3.minimized) (some comp3.dfa) true
      "abbb".toList = .ok false := by
  exact ⟨rfl, rfl, by rfl, by rfl, by rfl, by rfl, by rfl, by rfl⟩

/-! ### The simulator (C5) -/

theorem walk_iff_walks (alph : List Char) (tr : List ((Nat × Char) × Nat))
    (fins : Finset Nat) (w : List Char) :
    ∀ q, walk alph tr fins q w = true ↔
      ∃ qf, Walks alph tr q w qf ∧ qf ∈ fins := by
  induction w with
  | nil =>
    intro q
    constructor
    · intro h
      refine ⟨q, Walks.nil q, ?_⟩
      simpa [walk] using h
    · rintro ⟨qf, hw, hf⟩
      cases hw
      simpa [walk]
  | cons c rest ih =>
    intro q
    constructor
    · intro h
      rw [walk] at h
      by_cases hc : c ∈ alph
      · rw [if_pos hc] at h
        cases hq : tlookup tr (q, c) with
        | none => rw [hq] at h; exact absurd h (by simp)
        | some q2 =>
          rw [hq] at h
          obtain ⟨qf, hw, hf⟩ := (ih q2).1 h
          exact ⟨qf, Walks.cons hc hq hw, hf⟩
      · rw [if_neg hc] at h
        exact absurd h (by simp)
    · rintro ⟨qf, hw, hf⟩
      cases hw with
      | cons hc hq hrest =>
        rw [walk, if_pos hc, hq]
        exact (ih _).2 ⟨qf, hrest, hf⟩

/-- C5: the simulator accepts exactly the strings along which every
character is in the alphabet and has a recorded transition from the
current state, ending in a final state (path semantics); a character
outside the alphabet or without a transition makes it return `false`
immediately, and on the empty remainder it reports membership of the
current state in the final-state set. -/
theorem c5_simulator (alph : List Char) (d : Dfa) :
    (∀ w, simulate_core alph d w = true ↔
      ∃ qf, Walks alph d.transitions d.initial w qf ∧ qf ∈ d.final_states) ∧
    (∀ q c w, (c ∉ alph ∨ tlookup d.transitions (q, c) = none) →
      walk alph d.transitions d.final_states q (c :: w) = false) ∧
    (∀ q, walk alph d.transitions d.final_states q [] = decide (q ∈ d.final_states)) := by
  refine ⟨fun w => walk_iff_walks alph d.transitions d.final_states w d.initial,
    ?_, fun q => rfl⟩
  intro q c w h
  rcases h with hc | ht
  · rw [walk, if_neg hc]
  · rw [walk]
    by_cases hc : c ∈ alph
    · rw [if_pos hc, ht]
    · rw [if_neg hc]

theorem c5_witness :
    walk compA.alphabet compA.dfa.transitions compA.dfa.final_states 0 ['z'] = false := by
  exact (c5_simulator compA.alphabet compA.dfa).2.1 0 'z' []
    (Or.inl (by decide))

/-! ### Automaton selection in `simulate_dfa` (C9) -/

/-- C9: with `minimized=True` and only the direct automaton built,
`simulate_dfa` silently simulates the direct automaton (no error), and
with `minimized=True` it errors exactly when neither automaton is built. -/
theorem c9_fallback (alph : List Char) (w : List Char) :
    (∀ d, simulate_dfa alph none (some d) true w = .ok (simulate_core alph d w)) ∧
    (∀ mdfa dfa, ((simulate_dfa alph mdfa dfa true w).isOk = false ↔
      mdfa = none ∧ dfa = none)) := by
  refine ⟨fun d => rfl, ?_⟩
  intro mdfa dfa
  match mdfa, dfa with
  | some m, some d => simp [simulate_dfa, Except.isOk, Except.toBool]
  | some m, none => simp [simulate_dfa, Except.isOk, Except.toBool]
  | none, some d => simp [simulate_dfa, Except.isOk, Except.toBool]
  | none, none => simp [simulate_dfa, Except.isOk, Except.toBool]

theorem c7_witness :
    buildRun ['a'] [] 1 [] = some ([.leaf 'a' (some 1)], 2, [(1, 'a')]) := by
  exact ((c7_builder_errors ['a']).2 (.leaf 'a' (some 1)) 2 [(1, 'a')]).mp rfl

theorem c9_witness :
    simulate_dfa [] none (some junkDfa) true [] = .ok (simulate_core [] junkDfa []) := by
  exact (c9_fallback [] []).1 junkDfa

/-! ### Dictionary and interning-index lemmas -/

theorem tlookup_eq_none_iff (l : List ((Nat × Char) × Nat)) (k : Nat × Char) :
    tlookup l k = none ↔ ∀ e ∈ l, e.1 ≠ k := by
  unfold tlookup
  rw [Option.map_eq_none', List.find?_eq_none]
  constructor
  · intro h e he
    have := h e he
    simpa using this
  · intro h e he
    simpa using h e he

theorem tlookup_mem {l : List ((Nat × Char) × Nat)} {k : Nat × Char} {v : Nat}
    (h : tlookup l k = some v) : (k, v) ∈ l := by
  unfold tlookup at h
  rw [Option.map_eq_some'] at h
  obtain ⟨e, he, hv⟩ := h
  have hm := List.mem_of_find?_eq_some he
  have hk := List.find?_some he
  simp at hk
  have : e = (k, v) := by
    cases e
    simp_all
  rw [← this]
  exact hm

theorem mem_tlookup {l : List ((Nat × Char) × Nat)} {k : Nat × Char} {v : Nat}
    (hnd : (l.map (fun e => e.1)).Nodup) (h : (k, v) ∈ l) : tlookup l k = some v := by
  induction l with
  | nil => exact absurd h (by simp)
  | cons e rest ih =>
    rw [List.map_cons, List.nodup_cons] at hnd
    rcases List.mem_cons.1 h with rfl | htail
    · unfold tlookup
      simp
    · have hne : e.1 ≠ k := by
        intro hk
        exact hnd.1 (hk ▸ (List.mem_map.2 ⟨(k, v), htail, rfl⟩))
      unfold tlookup
      rw [List.find?_cons_of_neg _ (by simpa using hne)]
      exact ih hnd.2 htail

theorem tlookup_cons_ne {e : (Nat × Char) × Nat} {l : List ((Nat × Char) × Nat)}
    {k : Nat × Char} (h : e.1 ≠ k) : tlookup (e :: l) k = tlookup l k := by
  unfold tlookup
  rw [List.find?_cons_of_neg _ (by simpa using h)]

theorem dinsert_of_lookup_none {l : List ((Nat × Char) × Nat)} {k : Nat × Char}
    (h : tlookup l k = none) (v : Nat) : dinsert l k v = l ++ [(k, v)] := by
  unfold dinsert
  rw [if_neg]
  intro hany
  rw [List.any_eq_true] at hany
  obtain ⟨e, he, hk⟩ := hany
  exact (tlookup_eq_none_iff l k).1 h e he (by simpa using hk)

theorem tlookup_append (l1 l2 : List ((Nat × Char) × Nat)) (k : Nat × Char) :
    tlookup (l1 ++ l2) k =
      match tlookup l1 k with
      | some v => some v
      | none => tlookup l2 k := by
  unfold tlookup
  rw [List.find?_append]
  cases h : List.find? (fun e => e.1 = k) l1 with
  | none => simp [Option.orElse]
  | some e => simp [Option.orElse]

theorem tlookup_map_overwrite (l : List ((Nat × Char) × Nat)) (k : Nat × Char)
    (v : Nat) (k2 : Nat × Char) :
    tlookup (l.map (fun e => if e.1 = k then (k, v) else e)) k2 =
      if k2 = k then (if l.any (fun e => e.1 = k) then some v else none)
      else tlookup l k2 := by
  induction l with
  | nil =>
    by_cases hk2 : k2 = k
    · simp [tlookup, hk2]
    · simp [tlookup, hk2]
  | cons e rest ih =>
    rw [List.map_cons, List.any_cons]
    by_cases he : e.1 = k
    · rw [if_pos he]
      by_cases hk2 : k2 = k
      · subst hk2
        rw [if_pos rfl]
        unfold tlookup
        simp [he]
      · rw [if_neg hk2,
          tlookup_cons_ne (show ((k, v) : (Nat × Char) × Nat).1 ≠ k2 from
            fun h => hk2 h.symm),
          tlookup_cons_ne (show e.1 ≠ k2 from he ▸ fun h => hk2 h.symm), ih,
          if_neg hk2]
    · rw [if_neg he]
      by_cases hk2 : k2 = k
      · subst hk2
        rw [if_pos rfl, tlookup_cons_ne (show e.1 ≠ k2 from he), ih, if_pos rfl]
        have : (decide (e.1 = k2) || rest.any fun e => decide (e.1 = k2)) =
            rest.any fun e => decide (e.1 = k2) := by
          simp [he]
        rw [this]
      · rw [if_neg hk2]
        by_cases hek2 : e.1 = k2
        · unfold tlookup
          rw [List.find?_cons_of_pos _ (by simpa using hek2),
            List.find?_cons_of_pos _ (by simpa using hek2)]
        · rw [tlookup_cons_ne (show e.1 ≠ k2 from hek2),
            tlookup_cons_ne (show e.1 ≠ k2 from hek2), ih, if_neg hk2]

theorem any_eq_false_iff_lookup_none (l : List ((Nat × Char) × Nat)) (k : Nat × Char) :
    l.any (fun e => e.1 = k) = false ↔ tlookup l k = none := by
  rw [tlookup_eq_none_iff]
  simp

theorem tlookup_dinsert (l : List ((Nat × Char) × Nat)) (k : Nat × Char) (v : Nat)
    (k2 : Nat × Char) :
    tlookup (dinsert l k v) k2 = if k2 = k then some v else tlookup l k2 := by
  unfold dinsert
  by_cases hany : l.any (fun e => e.1 = k) = true
  · rw [if_pos hany, tlookup_map_overwrite, hany]
    by_cases hk2 : k2 = k
    · rw [if_pos hk2, if_pos hk2]
      simp
    · rw [if_neg hk2, if_neg hk2]
  · rw [if_neg hany, tlookup_append]
    have hnone : tlookup l k = none :=
      (any_eq_false_iff_lookup_none l k).1 (Bool.eq_false_iff.2 hany)
    by_cases hk2 : k2 = k
    · subst hk2
      rw [hnone]
      simp [tlookup]
    · rw [if_neg hk2]
      cases hl : tlookup l k2 with
      | some v2 => rfl
      | none =>
        show tlookup [(k, v)] k2 = none
        rw [tlookup_eq_none_iff]
        intro e he
        simp at he
        subst he
        simpa using fun h => hk2 h.symm

theorem tlookup_oob {l : List ((Nat × Char) × Nat)} {n : Nat}
    (h : ∀ e ∈ l, e.1.1 < n) {j : Nat} (hj : n ≤ j) (a : Char) :
    tlookup l (j, a) = none := by
  rw [tlookup_eq_none_iff]
  intro e he hk
  have := h e he
  rw [hk] at this
  omega

theorem lidx_lt {x : Finset Nat} {s : List (Finset Nat)} (h : x ∈ s) :
    lidx x s < s.length := by
  induction s with
  | nil => exact absurd h (by simp)
  | cons y ys ih =>
    rw [lidx]
    by_cases hy : y = x
    · rw [if_pos hy]
      simp
    · rw [if_neg hy]
      have := ih (by rcases List.mem_cons.1 h with h1 | h2; exact absurd h1.symm hy; exact h2)
      simp
      omega

theorem lidx_append {x : Finset Nat} {s : List (Finset Nat)} (h : x ∈ s)
    (t : List (Finset Nat)) : lidx x (s ++ t) = lidx x s := by
  induction s with
  | nil => exact absurd h (by simp)
  | cons y ys ih =>
    rw [List.cons_append, lidx, lidx]
    by_cases hy : y = x
    · rw [if_pos hy, if_pos hy]
    · rw [if_neg hy, if_neg hy,
        ih (by rcases List.mem_cons.1 h with h1 | h2; exact absurd h1.symm hy; exact h2)]

theorem get_lidx_aux {x : Finset Nat} {s : List (Finset Nat)} (h : x ∈ s) :
    ∀ i (hi : i < s.length), lidx x s = i → s.get ⟨i, hi⟩ = x := by
  induction s with
  | nil => exact absurd h (by simp)
  | cons y ys ih =>
    intro i hi hl
    by_cases hy : y = x
    · rw [lidx, if_pos hy] at hl
      subst hl
      exact hy
    · have hmem : x ∈ ys := by
        rcases List.mem_cons.1 h with h1 | h2
        · exact absurd h1.symm hy
        · exact h2
      rw [lidx, if_neg hy] at hl
      subst hl
      exact ih hmem (lidx x ys) (lidx_lt hmem) rfl

theorem get_lidx {x : Finset Nat} {s : List (Finset Nat)} (h : x ∈ s) :
    s.get ⟨lidx x s, lidx_lt h⟩ = x :=
  get_lidx_aux h (lidx x s) (lidx_lt h) rfl

theorem lidx_last {x : Finset Nat} {s : List (Finset Nat)} (h : x ∉ s) :
    lidx x (s ++ [x]) = s.length := by
  induction s with
  | nil => simp [lidx]
  | cons y ys ih =>
    rw [List.cons_append, lidx,
      if_neg (fun hy => h (by rw [← hy]; exact List.mem_cons_self y ys)),
      ih (fun hx => h (List.mem_cons_of_mem y hx))]
    simp

theorem lidx_inj {x y : Finset Nat} {s : List (Finset Nat)}
    (hx : x ∈ s) (hy : y ∈ s) (h : lidx x s = lidx y s) : x = y := by
  have h1 := get_lidx hx
  have h2 := get_lidx hy
  rw [← h1, ← h2]
  congr 1
  exact Fin.ext h

theorem lidx_get {s : List (Finset Nat)} (hnd : s.Nodup) (i : Nat)
    (hi : i < s.length) : lidx (s.get ⟨i, hi⟩) s = i := by
  induction s generalizing i with
  | nil => simp at hi
  | cons y ys ih =>
    rw [List.nodup_cons] at hnd
    match i with
    | 0 =>
      show lidx y (y :: ys) = 0
      rw [lidx, if_pos rfl]
    | j + 1 =>
      have hj : j < ys.length := by simpa using hi
      show lidx (ys.get ⟨j, hj⟩) (y :: ys) = j + 1
      rw [lidx, if_neg (fun hy => hnd.1 (by rw [hy]; exact List.get_mem ys j hj)),
        ih hnd.2 j hj]

/-! ### Invariants of the DFA construction loop -/

theorem keys_nodup_append {tr : List ((Nat × Char) × Nat)} {k : Nat × Char} {v : Nat}
    (hknd : (tr.map (fun e => e.1)).Nodup) (hfresh : tlookup tr k = none) :
    ((tr ++ [(k, v)]).map (fun e => e.1)).Nodup := by
  rw [List.map_append]
  refine List.Nodup.append hknd (by simp) ?_
  intro x hx hx2
  simp at hx2
  obtain ⟨e, he, hek⟩ := List.mem_map.1 hx
  rw [hx2] at hek
  exact (tlookup_eq_none_iff tr k).1 hfresh e he hek

theorem symLoop_spec (p2s : List (Nat × Char)) (fp : Nat → Finset Nat)
    (cur : Finset Nat) (alph : List Char) :
    ∀ syms seen q tr ci seen2 q2 tr2,
      symLoop p2s fp cur ci syms seen q tr = (seen2, q2, tr2) →
      ci = lidx cur seen →
      cur ∈ seen → cur ∉ q → seen.Nodup → (∀ S ∈ q, S ∈ seen) → q.Nodup →
      (∀ S ∈ q, ∀ a, tlookup tr (lidx S seen, a) = none) →
      (tr.map (fun e => e.1)).Nodup →
      (∀ e ∈ tr, e.1.1 < seen.length ∧ e.2 < seen.length) →
      (∀ e ∈ tr, e.1.2 ∈ alph) →
      (∀ a ∈ syms, tlookup tr (ci, a) = none) →
      syms.Nodup → (∀ a ∈ syms, a ∈ alph) →
      (∃ ext, seen2 = seen ++ ext ∧ q2 = q ++ ext ∧ (∀ S ∈ ext, S ∉ seen)) ∧
      seen2.Nodup ∧ (∀ S ∈ q2, S ∈ seen2) ∧ q2.Nodup ∧
      (tr2.map (fun e => e.1)).Nodup ∧
      (∀ e ∈ tr2, e.1.1 < seen2.length ∧ e.2 < seen2.length) ∧
      (∀ e ∈ tr2, e.1.2 ∈ alph) ∧
      (∀ k, k.1 ≠ ci → tlookup tr2 k = tlookup tr k) ∧
      (∀ a, a ∉ syms → tlookup tr2 (ci, a) = tlookup tr (ci, a)) ∧
      (∀ a ∈ syms,
        (MoveSet p2s fp cur a = ∅ → tlookup tr2 (ci, a) = none) ∧
        (MoveSet p2s fp cur a ≠ ∅ → MoveSet p2s fp cur a ∈ seen2 ∧
          tlookup tr2 (ci, a) = some (lidx (MoveSet p2s fp cur a) seen2))) := by
  intro syms
  induction syms with
  | nil =>
    intro seen q tr ci seen2 q2 tr2 hr hci hcur hcq hnd hqs hqnd hfresh hknd hend hlab
      hnone hsnd hsub
    obtain ⟨rfl, rfl, rfl⟩ : seen = seen2 ∧ q = q2 ∧ tr = tr2 := by
      have := hr
      simp [symLoop] at this
      exact ⟨this.1, this.2.1, this.2.2⟩
    refine ⟨⟨[], by simp, by simp, by simp⟩, hnd, hqs, hqnd, hknd, hend, hlab,
      fun k _ => rfl, fun a _ => rfl, fun a ha => absurd ha (by simp)⟩
  | cons a syms ih =>
    intro seen q tr ci seen2 q2 tr2 hr hci hcur hcq hnd hqs hqnd hfresh hknd hend hlab
      hnone hsnd hsub
    have hanotin : a ∉ syms := (List.nodup_cons.1 hsnd).1
    have hamem : a ∈ alph := hsub a (List.mem_cons_self a syms)
    have hcinone : tlookup tr (ci, a) = none := hnone a (List.mem_cons_self a syms)
    have hcilt : ci < seen.length := hci ▸ lidx_lt hcur
    simp only [symLoop] at hr
    by_cases hmv : MoveSet p2s fp cur a = ∅
    · rw [if_pos hmv] at hr
      obtain ⟨hext, hnd2, hqs2, hqnd2, hknd2, hend2, hlab2, hpres, hpres2, hchar⟩ :=
        ih seen q tr ci seen2 q2 tr2 hr hci hcur hcq hnd hqs hqnd hfresh hknd hend hlab
          (fun b hb => hnone b (List.mem_cons_of_mem a hb))
          (List.nodup_cons.1 hsnd).2 (fun b hb => hsub b (List.mem_cons_of_mem a hb))
      refine ⟨hext, hnd2, hqs2, hqnd2, hknd2, hend2, hlab2, hpres, ?_, ?_⟩
      · intro b hb
        exact hpres2 b (fun h2 => hb (List.mem_cons_of_mem a h2))
      · intro b hb
        rcases List.mem_cons.1 hb with rfl | hb2
        · refine ⟨fun _ => ?_, fun hne => absurd hmv hne⟩
          rw [hpres2 b hanotin]
          exact hcinone
        · exact hchar b hb2
    · rw [if_neg hmv] at hr
      by_cases hin : MoveSet p2s fp cur a ∈ seen
      · rw [if_pos hin, if_pos hin] at hr
        set mv := MoveSet p2s fp cur a with hmvdef
        set tr1 := dinsert tr (ci, a) (lidx mv seen) with htr1
        have hd1 : tlookup tr1 (ci, a) = some (lidx mv seen) := by
          rw [htr1, tlookup_dinsert, if_pos rfl]
        have hdother : ∀ k, k ≠ (ci, a) → tlookup tr1 k = tlookup tr k := by
          intro k hk
          rw [htr1, tlookup_dinsert, if_neg hk]
        have htr1app : tr1 = tr ++ [((ci, a), lidx mv seen)] :=
          htr1 ▸ dinsert_of_lookup_none hcinone _
        obtain ⟨hext, hnd2, hqs2, hqnd2, hknd2, hend2, hlab2, hpres, hpres2, hchar⟩ :=
          ih seen q tr1 ci seen2 q2 tr2 hr hci hcur hcq hnd hqs hqnd
            (fun S hS b => by
              rw [hdother _ (fun hk => hcq (by
                have : S = cur := lidx_inj (hqs S hS) hcur (by
                  have := congrArg Prod.fst hk
                  simpa [hci] using this)
                exact this ▸ hS))]
              exact hfresh S hS b)
            (htr1app ▸ keys_nodup_append hknd hcinone)
            (fun e he => by
              rw [htr1app] at he
              rcases List.mem_append.1 he with h1 | h1
              · exact hend e h1
              · simp at h1
                subst h1
                exact ⟨hcilt, lidx_lt hin⟩)
            (fun e he => by
              rw [htr1app] at he
              rcases List.mem_append.1 he with h1 | h1
              · exact hlab e h1
              · simp at h1
                subst h1
                exact hamem)
            (fun b hb => by
              rw [hdother _ (fun hk => hanotin (by
                have hba : b = a := by
                  have := congrArg Prod.snd hk
                  simpa using this
                exact hba ▸ hb))]
              exact hnone b (List.mem_cons_of_mem a hb))
            (List.nodup_cons.1 hsnd).2
            (fun b hb => hsub b (List.mem_cons_of_mem a hb))
        obtain ⟨ext, hseq, hqeq, hfreshext⟩ := hext
        refine ⟨⟨ext, hseq, hqeq, hfreshext⟩, hnd2, hqs2, hqnd2, hknd2, hend2, hlab2,
          ?_, ?_, ?_⟩
        · intro k hk
          rw [hpres k hk, hdother k (fun h2 => hk (by rw [h2]))]
        · intro b hb
          have hbs : b ∉ syms := fun h2 => hb (List.mem_cons_of_mem a h2)
          have hba : b ≠ a := fun h2 => hb (h2 ▸ List.mem_cons_self a syms)
          rw [hpres2 b hbs, hdother (ci, b) (fun h2 => hba (by
            have := congrArg Prod.snd h2
            simpa using this))]
        · intro b hb
          rcases List.mem_cons.1 hb with rfl | hb2
          · refine ⟨fun h2 => absurd h2 hmv, fun _ => ?_⟩
            constructor
            · rw [hseq]
              exact List.mem_append_left _ hin
            · rw [hpres2 b hanotin, hd1, hseq, lidx_append hin]
          · exact hchar b hb2
      · rw [if_neg hin, if_neg hin] at hr
        set mv := MoveSet p2s fp cur a with hmvdef
        set seen1 := seen ++ [mv] with hseen1
        set tr1 := dinsert tr (ci, a) (lidx mv seen1) with htr1
        have hmvlast : lidx mv seen1 = seen.length := hseen1 ▸ lidx_last hin
        have hd1 : tlookup tr1 (ci, a) = some (lidx mv seen1) := by
          rw [htr1, tlookup_dinsert, if_pos rfl]
        have hdother : ∀ k, k ≠ (ci, a) → tlookup tr1 k = tlookup tr k := by
          intro k hk
          rw [htr1, tlookup_dinsert, if_neg hk]
        have htr1app : tr1 = tr ++ [((ci, a), lidx mv seen1)] :=
          htr1 ▸ dinsert_of_lookup_none hcinone _
        have hcur1 : cur ∈ seen1 := List.mem_append_left _ hcur
        have hmv1 : mv ∈ seen1 := List.mem_append_right _ (by simp)
        have hci1 : ci = lidx cur seen1 := by rw [hci, hseen1, lidx_append hcur]
        have hcurmv : cur ≠ mv := fun h2 => hin (h2 ▸ hcur)
        obtain ⟨hext, hnd2, hqs2, hqnd2, hknd2, hend2, hlab2, hpres, hpres2, hchar⟩ :=
          ih seen1 (q ++ [mv]) tr1 ci seen2 q2 tr2 hr hci1 hcur1
            (fun h2 => by
              rcases List.mem_append.1 h2 with h3 | h3
              · exact hcq h3
              · simp at h3
                exact hcurmv h3)
            (by
              rw [hseen1]
              exact List.Nodup.append hnd (by simp) (by
                intro x hx hx2
                simp at hx2
                subst hx2
                exact hin hx))
            (fun S hS => by
              rcases List.mem_append.1 hS with h3 | h3
              · exact List.mem_append_left _ (hqs S h3)
              · simp at h3
                subst h3
                exact hmv1)
            (by
              refine List.Nodup.append hqnd (by simp) ?_
              intro x hx hx2
              simp at hx2
              subst hx2
              exact hin (hqs _ hx))
            (fun S hS b => by
              rcases List.mem_append.1 hS with h3 | h3
              · have hSseen : S ∈ seen := hqs S h3
                rw [hseen1, lidx_append hSseen,
                  hdother _ (fun hk => hcq (by
                    have : S = cur := lidx_inj hSseen hcur (by
                      have := congrArg Prod.fst hk
                      simpa [hci] using this)
                    exact this ▸ h3))]
                exact hfresh S h3 b
              · simp at h3
                subst h3
                rw [hdother (lidx mv seen1, b) (fun hk => by
                  have hfst := congrArg Prod.fst hk
                  simp only [] at hfst
                  rw [hmvlast] at hfst
                  omega)]
                rw [hmvlast]
                exact tlookup_oob (fun e he => (hend e he).1) (Nat.le_refl _) b)
            (htr1app ▸ keys_nodup_append hknd hcinone)
            (fun e he => by
              rw [htr1app] at he
              rcases List.mem_append.1 he with h1 | h1
              · have := hend e h1
                have hlen : seen.length ≤ seen1.length := by
                  rw [hseen1]
                  simp
                exact ⟨by omega, by omega⟩
              · simp at h1
                subst h1
                have hlen : seen1.length = seen.length + 1 := by
                  rw [hseen1]
                  simp
                refine ⟨?_, ?_⟩
                · show ci < seen1.length
                  omega
                · show lidx mv seen1 < seen1.length
                  rw [hmvlast]
                  omega)
            (fun e he => by
              rw [htr1app] at he
              rcases List.mem_append.1 he with h1 | h1
              · exact hlab e h1
              · simp at h1
                subst h1
                exact hamem)
            (fun b hb => by
              rw [hdother _ (fun hk => hanotin (by
                have hba : b = a := by
                  have := congrArg Prod.snd hk
                  simpa using this
                exact hba ▸ hb))]
              exact hnone b (List.mem_cons_of_mem a hb))
            (List.nodup_cons.1 hsnd).2
            (fun b hb => hsub b (List.mem_cons_of_mem a hb))
        obtain ⟨ext, hseq, hqeq, hfreshext⟩ := hext
        refine ⟨⟨mv :: ext, ?_, ?_, ?_⟩, hnd2, hqs2, hqnd2, hknd2, hend2, hlab2,
          ?_, ?_, ?_⟩
        · rw [hseq, hseen1]
          simp
        · rw [hqeq]
          simp
        · intro S hS
          rcases List.mem_cons.1 hS with rfl | h3
          · exact hin
          · intro h4
            exact hfreshext S h3 (List.mem_append_left _ h4)
        · intro k hk
          rw [hpres k hk, hdother k (fun h2 => hk (by rw [h2]))]
        · intro b hb
          have hbs : b ∉ syms := fun h2 => hb (List.mem_cons_of_mem a h2)
          have hba : b ≠ a := fun h2 => hb (h2 ▸ List.mem_cons_self a syms)
          rw [hpres2 b hbs, hdother (ci, b) (fun h2 => hba (by
            have := congrArg Prod.snd h2
            simpa using this))]
        · intro b hb
          rcases List.mem_cons.1 hb with rfl | hb2
          · refine ⟨fun h2 => absurd h2 hmv, fun _ => ?_⟩
            constructor
            · rw [hseq]
              exact List.mem_append_left _ hmv1
            · rw [hpres2 b hanotin, hd1, hseq, lidx_append hmv1]
          · exact hchar b hb2

theorem get_append_left_fs (s t : List (Finset Nat)) (i : Nat) (hi : i < s.length)
    (hi2 : i < (s ++ t).length) : (s ++ t).get ⟨i, hi2⟩ = s.get ⟨i, hi⟩ := by
  rw [List.get_eq_getElem, List.get_eq_getElem]
  exact List.getElem_append_left hi

theorem lidx_append_not_mem {x : Finset Nat} {s : List (Finset Nat)} (h : x ∉ s)
    (t : List (Finset Nat)) : lidx x (s ++ t) = s.length + lidx x t := by
  induction s with
  | nil => simp
  | cons y ys ih =>
    rw [List.cons_append, lidx,
      if_neg (fun hy => h (by rw [← hy]; exact List.mem_cons_self y ys)),
      ih (fun hx => h (List.mem_cons_of_mem y hx))]
    simp
    omega

theorem constructLoop_nil (p2s : List (Nat × Char)) (fp : Nat → Finset Nat)
    (alph : List Char) (endPos : Nat) (fuel : Nat) (seen : List (Finset Nat))
    (tr : List ((Nat × Char) × Nat)) (fins : Finset Nat) :
    constructLoop p2s fp alph endPos fuel seen [] tr fins = some (seen, tr, fins) := by
  match fuel with
  | 0 => rfl
  | fuel + 1 => rfl

theorem constructLoop_spec (p2s : List (Nat × Char)) (fp : Nat → Finset Nat)
    (alph : List Char) (endPos : Nat) (halphnd : alph.Nodup) :
    ∀ fuel seen q tr fins seen2 tr2 fins2,
      constructLoop p2s fp alph endPos fuel seen q tr fins = some (seen2, tr2, fins2) →
      seen.Nodup → (∀ S ∈ q, S ∈ seen) → q.Nodup →
      (∀ S ∈ q, ∀ a, tlookup tr (lidx S seen, a) = none) →
      (tr.map (fun e => e.1)).Nodup →
      (∀ e ∈ tr, e.1.1 < seen.length ∧ e.2 < seen.length) →
      (∀ e ∈ tr, e.1.2 ∈ alph) →
      (∀ i, i ∈ fins ↔ ∃ hi : i < seen.length,
        endPos ∈ seen.get ⟨i, hi⟩ ∧ seen.get ⟨i, hi⟩ ∉ q) →
      (∀ i, ∀ hi : i < seen.length, seen.get ⟨i, hi⟩ ∉ q → ∀ a ∈ alph,
        (MoveSet p2s fp (seen.get ⟨i, hi⟩) a = ∅ → tlookup tr (i, a) = none) ∧
        (MoveSet p2s fp (seen.get ⟨i, hi⟩) a ≠ ∅ →
          MoveSet p2s fp (seen.get ⟨i, hi⟩) a ∈ seen ∧
          tlookup tr (i, a) = some (lidx (MoveSet p2s fp (seen.get ⟨i, hi⟩) a) seen))) →
      (∃ ext, seen2 = seen ++ ext) ∧ seen2.Nodup ∧
      (tr2.map (fun e => e.1)).Nodup ∧
      (∀ e ∈ tr2, e.1.1 < seen2.length ∧ e.2 < seen2.length) ∧
      (∀ e ∈ tr2, e.1.2 ∈ alph) ∧
      (∀ i, i ∈ fins2 ↔ ∃ hi : i < seen2.length, endPos ∈ seen2.get ⟨i, hi⟩) ∧
      (∀ i, ∀ hi : i < seen2.length, ∀ a ∈ alph,
        (MoveSet p2s fp (seen2.get ⟨i, hi⟩) a = ∅ → tlookup tr2 (i, a) = none) ∧
        (MoveSet p2s fp (seen2.get ⟨i, hi⟩) a ≠ ∅ →
          MoveSet p2s fp (seen2.get ⟨i, hi⟩) a ∈ seen2 ∧
          tlookup tr2 (i, a) =
            some (lidx (MoveSet p2s fp (seen2.get ⟨i, hi⟩) a) seen2))) := by
  intro fuel
  induction fuel with
  | zero =>
    intro seen q tr fins seen2 tr2 fins2 hr hnd hqs hqnd hfresh hknd hend hlab hfins htrans
    cases q with
    | nil =>
      rw [constructLoop_nil] at hr
      obtain ⟨rfl, rfl, rfl⟩ : seen = seen2 ∧ tr = tr2 ∧ fins = fins2 := by
        have := hr
        simp at this
        exact ⟨this.1, this.2.1, this.2.2⟩
      refine ⟨⟨[], by simp⟩, hnd, hknd, hend, hlab, ?_, ?_⟩
      · intro i
        rw [hfins i]
        constructor
        · rintro ⟨hi, h1, h2⟩
          exact ⟨hi, h1⟩
        · rintro ⟨hi, h1⟩
          exact ⟨hi, h1, by simp⟩
      · intro i hi a ha
        exact htrans i hi (by simp) a ha
    | cons cur rest => exact absurd hr (by simp [constructLoop])
  | succ fuel ih =>
    intro seen q tr fins seen2 tr2 fins2 hr hnd hqs hqnd hfresh hknd hend hlab hfins htrans
    cases q with
    | nil =>
      rw [constructLoop_nil] at hr
      obtain ⟨rfl, rfl, rfl⟩ : seen = seen2 ∧ tr = tr2 ∧ fins = fins2 := by
        have := hr
        simp at this
        exact ⟨this.1, this.2.1, this.2.2⟩
      refine ⟨⟨[], by simp⟩, hnd, hknd, hend, hlab, ?_, ?_⟩
      · intro i
        rw [hfins i]
        constructor
        · rintro ⟨hi, h1, h2⟩
          exact ⟨hi, h1⟩
        · rintro ⟨hi, h1⟩
          exact ⟨hi, h1, by simp⟩
      · intro i hi a ha
        exact htrans i hi (by simp) a ha
    | cons cur rest =>
      have hcur : cur ∈ seen := hqs cur (List.mem_cons_self _ _)
      have hcnr : cur ∉ rest := (List.nodup_cons.1 hqnd).1
      have hcilt : lidx cur seen < seen.length := lidx_lt hcur
      simp only [constructLoop] at hr
      rcases hsl : symLoop p2s fp cur (lidx cur seen) alph seen rest tr with
        ⟨seen1, q1, tr1⟩
      rw [hsl] at hr
      simp only [] at hr
      obtain ⟨⟨ext, hsq, hqq, hextf⟩, hnd2, hqs2, hqnd2, hknd2, hend2, hlab2,
          hpres, hpres2, hchar⟩ :=
        symLoop_spec p2s fp cur alph alph seen rest tr (lidx cur seen) seen1 q1 tr1
          hsl rfl hcur hcnr hnd
          (fun S hS => hqs S (List.mem_cons_of_mem _ hS))
          (List.nodup_cons.1 hqnd).2
          (fun S hS a => hfresh S (List.mem_cons_of_mem _ hS) a)
          hknd hend hlab
          (fun a _ => hfresh cur (List.mem_cons_self _ _) a)
          halphnd (fun a ha => ha)
      subst hsq
      subst hqq
      have hclen : seen.length ≤ (seen ++ ext).length := by simp
      have hgetcur : ∀ h0 : lidx cur seen < seen.length,
          seen.get ⟨lidx cur seen, h0⟩ = cur :=
        fun h0 => get_lidx_aux hcur _ h0 rfl
      have hget1 : ∀ i (hi : i < seen.length) (hi2 : i < (seen ++ ext).length),
          (seen ++ ext).get ⟨i, hi2⟩ = seen.get ⟨i, hi⟩ :=
        fun i hi hi2 => get_append_left_fs seen ext i hi hi2
      have hgetext : ∀ i (hi2 : i < (seen ++ ext).length), ¬i < seen.length →
          (seen ++ ext).get ⟨i, hi2⟩ ∈ ext := by
        intro i hi2 hni
        rw [List.get_eq_getElem, List.getElem_append_right (Nat.le_of_not_lt hni)]
        exact List.getElem_mem _
      have hcurnq2 : cur ∉ rest ++ ext := by
        intro hmem
        rcases List.mem_append.1 hmem with h1 | h1
        · exact hcnr h1
        · exact hextf cur h1 hcur
      have hmemq2 : ∀ S ∈ ext, S ∈ rest ++ ext :=
        fun S hS => List.mem_append_right _ hS
      have hseennq : ∀ i (hi : i < seen.length), seen.get ⟨i, hi⟩ ∉ ext :=
        fun i hi hmem => hextf _ hmem (List.get_mem seen i hi)
      have happly := ih (seen ++ ext) (rest ++ ext) tr1
        (if endPos ∈ cur then insert (lidx cur seen) fins else fins)
        seen2 tr2 fins2 hr hnd2 hqs2 hqnd2
        ?_ hknd2 hend2 hlab2 ?_ ?_
      · obtain ⟨⟨ext2, hsq2⟩, c2, c3, c4, c5, c6, c7⟩ := happly
        refine ⟨⟨ext ++ ext2, by rw [hsq2, List.append_assoc]⟩,
          c2, c3, c4, c5, c6, c7⟩
      · intro S hS a
        rcases List.mem_append.1 hS with h1 | h1
        · have hSseen : S ∈ seen := hqs S (List.mem_cons_of_mem _ h1)
          rw [lidx_append hSseen ext, hpres (lidx S seen, a) (fun hk => by
            have hSc : S = cur := lidx_inj hSseen hcur (by simpa using hk)
            exact hcnr (hSc ▸ h1))]
          exact hfresh S (List.mem_cons_of_mem _ h1) a
        · have hSns : S ∉ seen := hextf S h1
          have hlid : seen.length ≤ lidx S (seen ++ ext) := by
            rw [lidx_append_not_mem hSns]
            omega
          have hlidne : lidx S (seen ++ ext) ≠ lidx cur seen := by omega
          rw [hpres (lidx S (seen ++ ext), a) (by simpa using hlidne)]
          exact tlookup_oob (fun e he => (hend e he).1) hlid a
      · intro i
        constructor
        · intro hmem
          by_cases hic : i = lidx cur seen
          · subst hic
            refine ⟨Nat.lt_of_lt_of_le hcilt hclen, ?_, ?_⟩
            · rw [hget1 _ hcilt _, hgetcur hcilt]
              by_cases hin : endPos ∈ cur
              · exact hin
              · rw [if_neg hin] at hmem
                obtain ⟨hi0, h1, h2⟩ := (hfins _).1 hmem
                rw [hgetcur hi0] at h2
                exact absurd (List.mem_cons_self cur rest) h2
            · rw [hget1 _ hcilt _, hgetcur hcilt]
              exact hcurnq2
          · have hmem2 : i ∈ fins := by
              by_cases hin : endPos ∈ cur
              · rw [if_pos hin] at hmem
                rcases Finset.mem_insert.1 hmem with h1 | h1
                · exact absurd h1 hic
                · exact h1
              · rw [if_neg hin] at hmem
                exact hmem
            obtain ⟨hi0, h1, h2⟩ := (hfins i).1 hmem2
            refine ⟨Nat.lt_of_lt_of_le hi0 hclen, ?_, ?_⟩
            · rw [hget1 _ hi0 _]
              exact h1
            · rw [hget1 _ hi0 _]
              intro hmem3
              rcases List.mem_append.1 hmem3 with h3 | h3
              · exact h2 (List.mem_cons_of_mem _ h3)
              · exact hseennq i hi0 h3
        · rintro ⟨hi2, h1, h2⟩
          have hilt : i < seen.length := by
            by_contra hni
            exact h2 (hmemq2 _ (hgetext i hi2 hni))
          rw [hget1 _ hilt _] at h1 h2
          by_cases hic : i = lidx cur seen
          · subst hic
            rw [hgetcur hilt] at h1
            rw [if_pos h1]
            exact Finset.mem_insert_self _ _
          · have hne : seen.get ⟨i, hilt⟩ ≠ cur := by
              intro heq
              have h4 := lidx_get hnd i hilt
              rw [heq] at h4
              exact hic h4.symm
            have hnq : seen.get ⟨i, hilt⟩ ∉ cur :: rest := by
              intro hmem3
              rcases List.mem_cons.1 hmem3 with h3 | h3
              · exact hne h3
              · exact h2 (List.mem_append_left _ h3)
            have hmem2 : i ∈ fins := (hfins i).2 ⟨hilt, h1, hnq⟩
            by_cases hin : endPos ∈ cur
            · rw [if_pos hin]
              exact Finset.mem_insert_of_mem hmem2
            · rw [if_neg hin]
              exact hmem2
      · intro i hi2 hiq a ha
        have hilt : i < seen.length := by
          by_contra hni
          exact hiq (hmemq2 _ (hgetext i hi2 hni))
        rw [hget1 _ hilt _] at hiq ⊢
        by_cases hic : i = lidx cur seen
        · subst hic
          rw [hgetcur hilt]
          exact hchar a ha
        · have hne : seen.get ⟨i, hilt⟩ ≠ cur := by
            intro heq
            have h4 := lidx_get hnd i hilt
            rw [heq] at h4
            exact hic h4.symm
          have hnq : seen.get ⟨i, hilt⟩ ∉ cur :: rest := by
            intro hmem3
            rcases List.mem_cons.1 hmem3 with h3 | h3
            · exact hne h3
            · exact hiq (List.mem_append_left _ h3)
          have hold := htrans i hilt hnq a ha
          have hlk : tlookup tr1 (i, a) = tlookup tr (i, a) :=
            hpres (i, a) (by simpa using hic)
          refine ⟨fun hmv => ?_, fun hmv => ?_⟩
          · rw [hlk]
            exact hold.1 hmv
          · obtain ⟨hmem4, hlk2⟩ := hold.2 hmv
            refine ⟨List.mem_append_left _ hmem4, ?_⟩
            rw [hlk, hlk2, lidx_append hmem4]

theorem construct_dfa_ok (alph : List Char) (p2s : List (Nat × Char))
    (fp : Nat → Finset Nat) (rootFirst : Finset Nat) (fuel : Nat) (d : Dfa)
    (h : construct_dfa alph p2s fp rootFirst fuel = .ok d) :
    ∃ e seen tr fins, p2s.find? (fun x => x.2 = '#') = some e ∧
      constructLoop p2s fp alph e.1 fuel [rootFirst] [rootFirst] [] ∅ =
        some (seen, tr, fins) ∧
      d = ⟨seen.length, 0, fins, tr⟩ := by
  unfold construct_dfa at h
  split at h
  · exact absurd h (by simp)
  next e he =>
    split at h
    · exact absurd h (by simp)
    next seen tr fins hloop =>
      refine ⟨e, seen, tr, fins, he, hloop, ?_⟩
      cases h
      rfl

theorem getD_eq_get (s : List (Finset Nat)) (i : Nat) (hi : i < s.length) :
    s.getD i ∅ = s.get ⟨i, hi⟩ := by
  rw [List.getD_eq_getElem?_getD, List.getElem?_eq_getElem hi, List.get_eq_getElem]
  rfl

/-- All the invariants of a successfully constructed automaton, phrased
against the discovery list `seen` of position-sets (state `i` *is* the
position-set `seen.getD i ∅`). -/
theorem construct_invariants (alph : List Char) (p2s : List (Nat × Char))
    (fp : Nat → Finset Nat) (rootFirst : Finset Nat) (fuel : Nat) (d : Dfa)
    (halphnd : alph.Nodup)
    (h : construct_dfa alph p2s fp rootFirst fuel = .ok d) :
    ∃ endP seen,
      p2s.find? (fun x => x.2 = '#') = some endP ∧
      d.states = seen.length ∧ d.initial = 0 ∧ seen.Nodup ∧ 0 < seen.length ∧
      seen.getD 0 ∅ = rootFirst ∧
      (d.transitions.map (fun e => e.1)).Nodup ∧
      (∀ e ∈ d.transitions, e.1.1 < d.states ∧ e.2 < d.states) ∧
      (∀ e ∈ d.transitions, e.1.2 ∈ alph) ∧
      (∀ i, i ∈ d.final_states ↔ (i < seen.length ∧ endP.1 ∈ seen.getD i ∅)) ∧
      (∀ i, i < seen.length → ∀ a ∈ alph,
        (MoveSet p2s fp (seen.getD i ∅) a = ∅ → tlookup d.transitions (i, a) = none) ∧
        (MoveSet p2s fp (seen.getD i ∅) a ≠ ∅ →
          lidx (MoveSet p2s fp (seen.getD i ∅) a) seen < seen.length ∧
          seen.getD (lidx (MoveSet p2s fp (seen.getD i ∅) a) seen) ∅ =
            MoveSet p2s fp (seen.getD i ∅) a ∧
          tlookup d.transitions (i, a) =
            some (lidx (MoveSet p2s fp (seen.getD i ∅) a) seen))) := by
  obtain ⟨e, seen, tr, fins, he, hloop, hd⟩ :=
    construct_dfa_ok alph p2s fp rootFirst fuel d h
  obtain ⟨⟨ext, hsq⟩, hnd2, hknd2, hend2, hlab2, hfins2, htrans2⟩ :=
    constructLoop_spec p2s fp alph e.1 halphnd fuel [rootFirst] [rootFirst] [] ∅
      seen tr fins hloop
      (by simp) (by simp) (by simp)
      (by intro S hS a; rfl)
      (by simp)
      (by intro x hx; exact absurd hx (by simp))
      (by intro x hx; exact absurd hx (by simp))
      (by
        intro i
        simp only [Finset.not_mem_empty, false_iff]
        rintro ⟨hi, h1, h2⟩
        have : i = 0 := by simpa using hi
        subst this
        exact h2 (by
          show ([rootFirst].get ⟨0, hi⟩) ∈ [rootFirst]
          exact List.get_mem _ _ _))
      (by
        intro i hi hniq a ha
        have : i = 0 := by simpa using hi
        subst this
        exact absurd (List.get_mem _ _ _) hniq)
  subst hsq
  have hlen : 0 < ([rootFirst] ++ ext).length := by simp
  refine ⟨e, [rootFirst] ++ ext, he, by rw [hd], by rw [hd], hnd2, hlen,
    ?_, ?_, ?_, ?_, ?_, ?_⟩
  · rw [getD_eq_get _ 0 hlen,
      get_append_left_fs [rootFirst] ext 0 (by simp) hlen]
    rfl
  · rw [hd]
    exact hknd2
  · rw [hd]
    exact hend2
  · rw [hd]
    exact hlab2
  · intro i
    rw [hd]
    show i ∈ fins ↔ _
    rw [hfins2 i]
    constructor
    · rintro ⟨hi, h1⟩
      exact ⟨hi, by rw [getD_eq_get _ i hi]; exact h1⟩
    · rintro ⟨hi, h1⟩
      exact ⟨hi, by rw [getD_eq_get _ i hi] at h1; exact h1⟩
  · intro i hi a ha
    have := htrans2 i hi a ha
    rw [getD_eq_get _ i hi]
    refine ⟨fun hmv => by rw [hd]; exact this.1 hmv, fun hmv => ?_⟩
    obtain ⟨hmem, hlk⟩ := this.2 hmv
    have hjlt := lidx_lt hmem
    refine ⟨hjlt, ?_, by rw [hd]; exact hlk⟩
    rw [getD_eq_get _ _ hjlt]
    exact get_lidx hmem

theorem find?_of_filter_singleton {p : Nat × Char → Bool} {l : List (Nat × Char)}
    {x : Nat × Char} (h : l.filter p = [x]) : l.find? p = some x := by
  induction l with
  | nil => simp at h
  | cons e rest ih =>
    rw [List.filter_cons] at h
    by_cases hp : p e = true
    · rw [if_pos hp] at h
      have : e = x := (List.cons.injEq _ _ _ _ ▸ h).1
      rw [List.find?_cons_of_pos _ hp, this]
    · rw [if_neg (by simpa using hp)] at h
      rw [List.find?_cons_of_neg _ hp]
      exact ih h

/-- C4: in the DFA constructor, the initial state (id 0) is the root's
firstpos set; when the `pos_to_symbol` table assigns `#` to exactly one
position `endPos` (as the augmentation guarantees for expressions with no
literal `#`), a state is final iff its position-set contains `endPos`; and
for each alphabet symbol `a`, the transition from state `i` is recorded
exactly when the union of `followpos[p]` over positions `p` of the state
mapped to `a` (`MoveSet`) is nonempty, in which case it points at the
state whose position-set is that union — no entry exists when the union is
empty. -/
theorem c4_constructor (alph : List Char) (p2s : List (Nat × Char))
    (fp : Nat → Finset Nat) (rootFirst : Finset Nat) (fuel : Nat) (d : Dfa)
    (halphnd : alph.Nodup) (endPos : Nat)
    (huniq : p2s.filter (fun x => x.2 = '#') = [(endPos, '#')])
    (h : construct_dfa alph p2s fp rootFirst fuel = .ok d) :
    ∃ seen : List (Finset Nat),
      d.states = seen.length ∧ d.initial = 0 ∧ 0 < seen.length ∧
      seen.getD 0 ∅ = rootFirst ∧
      (∀ i, i ∈ d.final_states ↔ (i < seen.length ∧ endPos ∈ seen.getD i ∅)) ∧
      (∀ i, i < seen.length → ∀ a ∈ alph,
        (MoveSet p2s fp (seen.getD i ∅) a = ∅ → tlookup d.transitions (i, a) = none) ∧
        (MoveSet p2s fp (seen.getD i ∅) a ≠ ∅ →
          lidx (MoveSet p2s fp (seen.getD i ∅) a) seen < seen.length ∧
          seen.getD (lidx (MoveSet p2s fp (seen.getD i ∅) a) seen) ∅ =
            MoveSet p2s fp (seen.getD i ∅) a ∧
          tlookup d.transitions (i, a) =
            some (lidx (MoveSet p2s fp (seen.getD i ∅) a) seen))) := by
  obtain ⟨endP, seen, he, h1, h2, h3, h4, h5, h6, h7, h8, h9, h10⟩ :=
    construct_invariants alph p2s fp rootFirst fuel d halphnd h
  have hfind := find?_of_filter_singleton huniq
  rw [he] at hfind
  have hEP : endP.1 = endPos := by
    cases hfind
    rfl
  exact ⟨seen, h1, h2, h4, h5, fun i => hEP ▸ h9 i, h10⟩

theorem c4_witness :
    ∃ seen : List (Finset Nat),
      compA.dfa.states = seen.length ∧ compA.dfa.initial = 0 ∧ 0 < seen.length ∧
      seen.getD 0 ∅ = (attrsOf prA.root).firstpos ∧
      (∀ i, i ∈ compA.dfa.final_states ↔ (i < seen.length ∧ 2 ∈ seen.getD i ∅)) ∧
      (∀ i, i < seen.length → ∀ a ∈ prA.alphabet,
        (MoveSet prA.table prA.followpos (seen.getD i ∅) a = ∅ →
          tlookup compA.dfa.transitions (i, a) = none) ∧
        (MoveSet prA.table prA.followpos (seen.getD i ∅) a ≠ ∅ →
          lidx (MoveSet prA.table prA.followpos (seen.getD i ∅) a) seen < seen.length ∧
          seen.getD (lidx (MoveSet prA.table prA.followpos (seen.getD i ∅) a) seen) ∅ =
            MoveSet prA.table prA.followpos (seen.getD i ∅) a ∧
          tlookup compA.dfa.transitions (i, a) =
            some (lidx (MoveSet prA.table prA.followpos (seen.getD i ∅) a) seen))) := by
  exact c4_constructor prA.alphabet prA.table prA.followpos
    (attrsOf prA.root).firstpos 100 compA.dfa (by decide) 2 (by decide) (by rfl)

/-! ### No ε positions, ε transitions (C10) -/

theorem lookupP_mem {p2s : List (Nat × Char)} {p : Nat} {c : Char}
    (h : (p2s.find? (fun e => e.1 = p)).map (fun e => e.2) = some c) :
    (p, c) ∈ p2s := by
  rw [Option.map_eq_some'] at h
  obtain ⟨e, he, hv⟩ := h
  have hm := List.mem_of_find?_eq_some he
  have hk := List.find?_some he
  simp at hk
  have : e = (p, c) := by
    cases e
    simp_all
  rw [← this]
  exact hm

theorem moveSet_eps_empty {p2s : List (Nat × Char)} (fp : Nat → Finset Nat)
    (S : Finset Nat) (hp2s : ∀ e ∈ p2s, e.2 ≠ 'ε') :
    MoveSet p2s fp S 'ε' = ∅ := by
  unfold MoveSet
  rw [Finset.eq_empty_iff_forall_not_mem]
  intro x hx
  rw [Finset.mem_biUnion] at hx
  obtain ⟨p, hpS, hxin⟩ := hx
  by_cases hl : (p2s.find? (fun e => e.1 = p)).map (fun e => e.2) = some 'ε'
  · exact hp2s (p, 'ε') (lookupP_mem hl) rfl
  · rw [if_neg hl] at hxin
    exact absurd hxin (by simp)

theorem walk_no_eps (alph : List Char) (tr : List ((Nat × Char) × Nat))
    (fins : Finset Nat) (htr : ∀ e ∈ tr, e.1.2 ≠ 'ε') :
    ∀ w q, 'ε' ∈ w → walk alph tr fins q w = false := by
  intro w
  induction w with
  | nil =>
    intro q hmem
    exact absurd hmem (by simp)
  | cons c rest ih =>
    intro q hmem
    rw [walk]
    by_cases hc : c ∈ alph
    · rw [if_pos hc]
      cases hl : tlookup tr (q, c) with
      | none => rfl
      | some q2 =>
        by_cases hce : c = 'ε'
        · subst hce
          exact absurd rfl (htr _ (tlookup_mem hl))
        · have : 'ε' ∈ rest := by
            rcases List.mem_cons.1 hmem with h1 | h1
            · exact absurd h1.symm hce
            · exact h1
          exact ih q2 this
    · rw [if_neg hc]

theorem minimize_ok (alph : List Char) (d : Dfa) (fuel : Nat) (md : Dfa)
    (h : minimize_dfa alph d fuel = some md) :
    ∃ p, refineLoop d.transitions d.states alph fuel
        ([Finset.range d.states \ d.final_states, d.final_states].filter
          (fun x => ¬x = ∅))
        ([Finset.range d.states \ d.final_states, d.final_states].filter
          (fun x => ¬x = ∅)) = some p ∧
      (∀ e ∈ d.transitions, (smap p e.1.1).isSome ∧ (smap p e.2).isSome) ∧
      (∀ f ∈ d.final_states, (smap p f).isSome) ∧ (smap p d.initial).isSome ∧
      md = ⟨p.length, (smap p d.initial).getD 0,
        d.final_states.image (fun f => (smap p f).getD 0),
        d.transitions.foldl
          (fun acc e =>
            dinsert acc ((smap p e.1.1).getD 0, e.1.2) ((smap p e.2).getD 0)) []⟩ := by
  simp only [minimize_dfa] at h
  split at h
  · exact absurd h (by simp)
  next p hp =>
    split at h
    next hckd =>
      refine ⟨p, hp, hckd.1, hckd.2.1, hckd.2.2, ?_⟩
      cases h
      rfl
    · exact absurd h (by simp)

theorem fold_dinsert_labels (src : List ((Nat × Char) × Nat))
    (f : ((Nat × Char) × Nat) → (Nat × Char)) (g : ((Nat × Char) × Nat) → Nat)
    (hl : ∀ e ∈ src, (f e).2 = e.1.2) :
    ∀ acc, (∀ e2 ∈ acc, ∃ e ∈ src, e2.1.2 = e.1.2) →
      ∀ e2 ∈ src.foldl (fun acc e => dinsert acc (f e) (g e)) acc,
        ∃ e ∈ src, e2.1.2 = e.1.2 := by
  have main : ∀ (l : List ((Nat × Char) × Nat)), (∀ e ∈ l, e ∈ src) →
      ∀ acc, (∀ e2 ∈ acc, ∃ e ∈ src, e2.1.2 = e.1.2) →
      ∀ e2 ∈ l.foldl (fun acc e => dinsert acc (f e) (g e)) acc,
        ∃ e ∈ src, e2.1.2 = e.1.2 := by
    intro l
    induction l with
    | nil =>
      intro _ acc hacc e2 he2
      exact hacc e2 he2
    | cons e rest ih =>
      intro hsub acc hacc e2 he2
      rw [List.foldl_cons] at he2
      refine ih (fun x hx => hsub x (List.mem_cons_of_mem _ hx)) _ ?_ e2 he2
      intro e3 he3
      unfold dinsert at he3
      split at he3
      · obtain ⟨e4, he4, hfe⟩ := List.mem_map.1 he3
        by_cases hk : e4.1 = f e
        · rw [if_pos hk] at hfe
          refine ⟨e, hsub e (List.mem_cons_self _ _), ?_⟩
          rw [← hfe]
          exact hl e (hsub e (List.mem_cons_self _ _))
        · rw [if_neg hk] at hfe
          exact hacc e3 (hfe ▸ he4)
      · rcases List.mem_append.1 he3 with h1 | h1
        · exact hacc e3 h1
        · simp at h1
          refine ⟨e, hsub e (List.mem_cons_self _ _), ?_⟩
          rw [h1]
          exact hl e (hsub e (List.mem_cons_self _ _))
  exact main src (fun e he => he)

/-- C10: no position is ever mapped to `ε` (every table symbol is a
positioned leaf token, which excludes `ε`); when the expression text
contains `ε` the derived alphabet contains `ε` (it is not one of the
excluded metacharacters), so `ε` passes the simulator's alphabet check;
yet neither automaton has any transition labelled `ε`, so every input
containing `ε` is rejected by both automata. -/
theorem c10_epsilon (regex : List Char) (f1 f2 : Nat) (comp : Compiled)
    (h : process regex f1 f2 = .ok comp) :
    (∀ e ∈ comp.table, e.2 ≠ 'ε') ∧
    ('ε' ∈ regex → 'ε' ∈ comp.alphabet) ∧
    (∀ e ∈ comp.dfa.transitions, e.1.2 ≠ 'ε') ∧
    (∀ e ∈ comp.minimized.transitions, e.1.2 ≠ 'ε') ∧
    (∀ w, 'ε' ∈ w → simulate_core comp.alphabet comp.dfa w = false ∧
      simulate_core comp.alphabet comp.minimized w = false) := by
  obtain ⟨pr, hpr, hcd, hmin, halph, hroot, htab, hfp⟩ := process_ok regex f1 f2 comp h
  obtain ⟨t, np2, hb, halph2, hroot2, hfp2⟩ := parse_ok regex pr hpr
  have htabeps : ∀ e ∈ comp.table, e.2 ≠ 'ε' := by
    intro e he
    rw [htab] at he
    obtain ⟨hzip, hleaves⟩ :=
      (c8_positions (shuntingYard (augmented regex))).1 t np2 pr.table hb
    rw [hzip] at he
    have hmem := (List.mem_zip he).2
    have := List.of_mem_filter hmem
    have hpt : isPosTok e.2 := by simpa using this
    exact hpt.2.2
  have halphnd : comp.alphabet.Nodup := by
    rw [halph, halph2]
    exact List.nodup_dedup _
  have htabeps2 : ∀ e ∈ pr.table, e.2 ≠ 'ε' := by
    intro e he
    exact htabeps e (by rw [htab]; exact he)
  obtain ⟨endP, seen, he, hst, hini, hnd, hlen, hget0, hknd, hend, hlab, hfins, htrans⟩ :=
    construct_invariants pr.alphabet pr.table pr.followpos
      (attrsOf pr.root).firstpos f1 comp.dfa (by rw [← halph]; exact halphnd) hcd
  have hdfaeps : ∀ e ∈ comp.dfa.transitions, e.1.2 ≠ 'ε' := by
    intro e he heps
    have hlk : tlookup comp.dfa.transitions e.1 = some e.2 :=
      mem_tlookup hknd (by rw [Prod.mk.eta]; exact he)
    have hsrc : e.1.1 < seen.length := by
      have := (hend e he).1
      rw [hst] at this
      exact this
    have hchar := htrans e.1.1 hsrc e.1.2 (hlab e he)
    have hmv : MoveSet pr.table pr.followpos (seen.getD e.1.1 ∅) e.1.2 = ∅ := by
      rw [heps]
      exact moveSet_eps_empty pr.followpos _ htabeps2
    have hnone := hchar.1 hmv
    rw [show ((e.1.1, e.1.2) : Nat × Char) = e.1 from Prod.mk.eta, hlk] at hnone
    exact absurd hnone (by simp)
  obtain ⟨p, hploop, hsm1, hsm2, hsm3, hmd⟩ :=
    minimize_ok pr.alphabet comp.dfa f2 comp.minimized hmin
  have hmineps : ∀ e ∈ comp.minimized.transitions, e.1.2 ≠ 'ε' := by
    intro e2 he2
    have hform : comp.minimized.transitions = comp.dfa.transitions.foldl
        (fun acc e =>
          dinsert acc ((smap p e.1.1).getD 0, e.1.2) ((smap p e.2).getD 0)) [] := by
      rw [hmd]
    rw [hform] at he2
    obtain ⟨e, hesrc, hlabeq⟩ :=
      fold_dinsert_labels comp.dfa.transitions
        (fun e => ((smap p e.1.1).getD 0, e.1.2)) (fun e => (smap p e.2).getD 0)
        (fun e _ => rfl) [] (by simp) e2 he2
    rw [hlabeq]
    exact hdfaeps e hesrc
  refine ⟨htabeps, ?_, hdfaeps, hmineps, ?_⟩
  · intro hmem
    rw [halph, halph2]
    unfold alphabet_of
    rw [List.mem_dedup, List.mem_filter]
    exact ⟨hmem, by decide⟩
  · intro w hw
    exact ⟨walk_no_eps comp.alphabet comp.dfa.transitions comp.dfa.final_states
        hdfaeps w comp.dfa.initial hw,
      walk_no_eps comp.alphabet comp.minimized.transitions comp.minimized.final_states
        hmineps w comp.minimized.initial hw⟩

theorem c10_witness :
    ('ε' ∈ compEps.alphabet) ∧
    simulate_core compEps.alphabet compEps.dfa ['ε'] = false ∧
    simulate_core compEps.alphabet compEps.minimized ['ε'] = false := by
  have h := c10_epsilon "ε".toList 100 100 compEps (by rfl)
  exact ⟨h.2.1 (by decide), (h.2.2.2.2 ['ε'] (by decide)).1,
    (h.2.2.2.2 ['ε'] (by decide)).2⟩

/-! ### Stability infrastructure for partition refinement (C1)

Language preservation by `minimize_dfa` rests on the final partition being
*stable*: no block is cut by the predecessors of any block.  The loop
guarantees this through the classic pending-splitter argument: every block
is derivable (`Deriv`) from the pending workset together with the already
processed splitters, stability against every processed splitter holds and
is inherited by sub-blocks, and derivability transports stability. -/

theorem mem_preds_iff {tr : List ((Nat × Char) × Nat)} {n : Nat} {S : Finset Nat}
    {a : Char} {q : Nat} :
    q ∈ preds tr n S a ↔ q < n ∧ ∃ d, tlookup tr (q, a) = some d ∧ d ∈ S := by
  unfold preds predMem
  rw [Finset.mem_filter, Finset.mem_range]
  constructor
  · rintro ⟨h1, h2⟩
    refine ⟨h1, ?_⟩
    cases hl : tlookup tr (q, a) with
    | none => rw [hl] at h2; simp at h2
    | some d =>
      rw [hl] at h2
      simp at h2
      exact ⟨d, rfl, h2⟩
  · rintro ⟨h1, d, hd, hdS⟩
    refine ⟨h1, ?_⟩
    rw [hd]
    simpa using hdS

theorem preds_sdiff (tr : List ((Nat × Char) × Nat)) (n : Nat) (X Y : Finset Nat)
    (a : Char) : preds tr n (X \ Y) a = preds tr n X a \ preds tr n Y a := by
  ext q
  rw [Finset.mem_sdiff, mem_preds_iff, mem_preds_iff, mem_preds_iff]
  constructor
  · rintro ⟨h1, d, hd, hdS⟩
    rw [Finset.mem_sdiff] at hdS
    refine ⟨⟨h1, d, hd, hdS.1⟩, ?_⟩
    rintro ⟨-, d2, hd2, hd2S⟩
    rw [hd] at hd2
    cases hd2
    exact hdS.2 hd2S
  · rintro ⟨⟨h1, d, hd, hdS⟩, h2⟩
    refine ⟨h1, d, hd, ?_⟩
    rw [Finset.mem_sdiff]
    exact ⟨hdS, fun hdY => h2 ⟨h1, d, hd, hdY⟩⟩

theorem preds_union (tr : List ((Nat × Char) × Nat)) (n : Nat) (X Y : Finset Nat)
    (a : Char) : preds tr n (X ∪ Y) a = preds tr n X a ∪ preds tr n Y a := by
  ext q
  rw [Finset.mem_union, mem_preds_iff, mem_preds_iff, mem_preds_iff]
  constructor
  · rintro ⟨h1, d, hd, hdS⟩
    rcases Finset.mem_union.1 hdS with h2 | h2
    · exact Or.inl ⟨h1, d, hd, h2⟩
    · exact Or.inr ⟨h1, d, hd, h2⟩
  · rintro (⟨h1, d, hd, hdS⟩ | ⟨h1, d, hd, hdS⟩)
    · exact ⟨h1, d, hd, Finset.mem_union_left _ hdS⟩
    · exact ⟨h1, d, hd, Finset.mem_union_right _ hdS⟩

theorem preds_disjoint {tr : List ((Nat × Char) × Nat)} {n : Nat} {X Y : Finset Nat}
    (a : Char) (h : Disjoint X Y) :
    Disjoint (preds tr n X a) (preds tr n Y a) := by
  rw [Finset.disjoint_left]
  intro q hqX hqY
  rw [mem_preds_iff] at hqX hqY
  obtain ⟨-, d, hd, hdX⟩ := hqX
  obtain ⟨-, d2, hd2, hdY⟩ := hqY
  rw [hd] at hd2
  cases hd2
  exact (Finset.disjoint_left.1 h) hdX hdY

theorem isStable_anti {tr : List ((Nat × Char) × Nat)} {n : Nat}
    {C C2 X : Finset Nat} {a : Char} (hsub : C2 ⊆ C)
    (h : IsStable tr n C X a) : IsStable tr n C2 X a := by
  rcases h with h | h
  · exact Or.inl (hsub.trans h)
  · refine Or.inr (Finset.eq_empty_iff_forall_not_mem.2 ?_)
    intro x hx
    rw [Finset.mem_inter] at hx
    exact Finset.eq_empty_iff_forall_not_mem.1 h x
      (Finset.mem_inter.2 ⟨hsub hx.1, hx.2⟩)

theorem isStable_sdiff {tr : List ((Nat × Char) × Nat)} {n : Nat}
    {C X Y : Finset Nat} {a : Char} (hY : Y ⊆ X)
    (h1 : IsStable tr n C X a) (h2 : IsStable tr n C Y a) :
    IsStable tr n C (X \ Y) a := by
  rw [IsStable, preds_sdiff]
  rcases h1 with h1 | h1
  · rcases h2 with h2 | h2
    · refine Or.inr (Finset.eq_empty_iff_forall_not_mem.2 ?_)
      intro x hx
      rw [Finset.mem_inter, Finset.mem_sdiff] at hx
      exact hx.2.2 (h2 hx.1)
    · refine Or.inl ?_
      intro x hx
      rw [Finset.mem_sdiff]
      refine ⟨h1 hx, fun hxY => ?_⟩
      exact Finset.eq_empty_iff_forall_not_mem.1 h2 x (Finset.mem_inter.2 ⟨hx, hxY⟩)
  · refine Or.inr (Finset.eq_empty_iff_forall_not_mem.2 ?_)
    intro x hx
    rw [Finset.mem_inter, Finset.mem_sdiff] at hx
    exact Finset.eq_empty_iff_forall_not_mem.1 h1 x (Finset.mem_inter.2 ⟨hx.1, hx.2.1⟩)

theorem isStable_union {tr : List ((Nat × Char) × Nat)} {n : Nat}
    {C X Y : Finset Nat} {a : Char} (hdisj : Disjoint X Y)
    (h1 : IsStable tr n C X a) (h2 : IsStable tr n C Y a) :
    IsStable tr n C (X ∪ Y) a := by
  rw [IsStable, preds_union]
  rcases h1 with h1 | h1
  · exact Or.inl (h1.trans (Finset.subset_union_left))
  · rcases h2 with h2 | h2
    · exact Or.inl (h2.trans (Finset.subset_union_right))
    · refine Or.inr (Finset.eq_empty_iff_forall_not_mem.2 ?_)
      intro x hx
      rw [Finset.mem_inter, Finset.mem_union] at hx
      rcases hx.2 with h3 | h3
      · exact Finset.eq_empty_iff_forall_not_mem.1 h1 x (Finset.mem_inter.2 ⟨hx.1, h3⟩)
      · exact Finset.eq_empty_iff_forall_not_mem.1 h2 x (Finset.mem_inter.2 ⟨hx.1, h3⟩)

theorem deriv_stable {tr : List ((Nat × Char) × Nat)} {n : Nat}
    {fam : Set (Finset Nat)} {C : Finset Nat} {alph : List Char}
    (hstab : ∀ X ∈ fam, ∀ a ∈ alph, IsStable tr n C X a) :
    ∀ {Z}, Deriv fam Z → ∀ a ∈ alph, IsStable tr n C Z a := by
  intro Z hZ
  induction hZ with
  | mem hX => exact hstab _ hX
  | sdiff hX hY hsub ihX ihY =>
    intro a ha
    exact isStable_sdiff hsub (ihX a ha) (ihY a ha)
  | disjUnion hX hY hdisj ihX ihY =>
    intro a ha
    exact isStable_union hdisj (ihX a ha) (ihY a ha)

theorem deriv_mono {fam fam2 : Set (Finset Nat)} (h : fam ⊆ fam2) :
    ∀ {Z}, Deriv fam Z → Deriv fam2 Z := by
  intro Z hZ
  induction hZ with
  | mem hX => exact Deriv.mem (h hX)
  | sdiff hX hY hsub ihX ihY => exact Deriv.sdiff ihX ihY hsub
  | disjUnion hX hY hdisj ihX ihY => exact Deriv.disjUnion ihX ihY hdisj

theorem deriv_trans {fam fam2 : Set (Finset Nat)}
    (h : ∀ X ∈ fam, Deriv fam2 X) : ∀ {Z}, Deriv fam Z → Deriv fam2 Z := by
  intro Z hZ
  induction hZ with
  | mem hX => exact h _ hX
  | sdiff hX hY hsub ihX ihY => exact Deriv.sdiff ihX ihY hsub
  | disjUnion hX hY hdisj ihX ihY => exact Deriv.disjUnion ihX ihY hdisj

theorem inter_disj_sdiff (b pr : Finset Nat) : Disjoint (b ∩ pr) (b \ pr) := by
  rw [Finset.disjoint_left]
  intro x hx hx2
  rw [Finset.mem_inter] at hx
  rw [Finset.mem_sdiff] at hx2
  exact hx2.2 hx.2

theorem splitAll_inherit (pr : Finset Nat) :
    ∀ p w, ∀ C ∈ (splitAll pr p w).1, ∃ B ∈ p, C ⊆ B := by
  intro p
  induction p with
  | nil =>
    intro w C hC
    exact absurd hC (by simp [splitAll])
  | cons b rest ih =>
    intro w C hC
    simp only [splitAll] at hC
    by_cases hsplit : ¬(b ∩ pr) = ∅ ∧ ¬(b \ pr) = ∅
    · rw [if_pos hsplit] at hC
      rcases List.mem_cons.1 hC with rfl | hC2
      · exact ⟨b, List.mem_cons_self _ _, Finset.inter_subset_left⟩
      rcases List.mem_cons.1 hC2 with rfl | hC3
      · exact ⟨b, List.mem_cons_self _ _, Finset.sdiff_subset⟩
      · obtain ⟨B, hB, hsub⟩ := ih _ C hC3
        exact ⟨B, List.mem_cons_of_mem _ hB, hsub⟩
    · rw [if_neg hsplit] at hC
      rcases List.mem_cons.1 hC with rfl | hC2
      · exact ⟨C, List.mem_cons_self _ _, Finset.Subset.refl _⟩
      · obtain ⟨B, hB, hsub⟩ := ih _ C hC2
        exact ⟨B, List.mem_cons_of_mem _ hB, hsub⟩

theorem splitAll_nonempty (pr : Finset Nat) :
    ∀ p w, (∀ B ∈ p, B ≠ ∅) → ∀ C ∈ (splitAll pr p w).1, C ≠ ∅ := by
  intro p
  induction p with
  | nil =>
    intro w _ C hC
    exact absurd hC (by simp [splitAll])
  | cons b rest ih =>
    intro w hne C hC
    simp only [splitAll] at hC
    by_cases hsplit : ¬(b ∩ pr) = ∅ ∧ ¬(b \ pr) = ∅
    · rw [if_pos hsplit] at hC
      rcases List.mem_cons.1 hC with rfl | hC2
      · exact hsplit.1
      rcases List.mem_cons.1 hC2 with rfl | hC3
      · exact hsplit.2
      · exact ih _ (fun B hB => hne B (List.mem_cons_of_mem _ hB)) C hC3
    · rw [if_neg hsplit] at hC
      rcases List.mem_cons.1 hC with rfl | hC2
      · exact hne C (List.mem_cons_self _ _)
      · exact ih _ (fun B hB => hne B (List.mem_cons_of_mem _ hB)) C hC2

theorem splitAll_cover (pr : Finset Nat) :
    ∀ p w x, (∃ C ∈ (splitAll pr p w).1, x ∈ C) ↔ (∃ B ∈ p, x ∈ B) := by
  intro p
  induction p with
  | nil =>
    intro w x
    simp [splitAll]
  | cons b rest ih =>
    intro w x
    simp only [splitAll]
    by_cases hsplit : ¬(b ∩ pr) = ∅ ∧ ¬(b \ pr) = ∅
    · rw [if_pos hsplit]
      constructor
      · rintro ⟨C, hC, hx⟩
        rcases List.mem_cons.1 hC with rfl | hC2
        · exact ⟨b, List.mem_cons_self _ _, (Finset.mem_inter.1 hx).1⟩
        rcases List.mem_cons.1 hC2 with rfl | hC3
        · exact ⟨b, List.mem_cons_self _ _, (Finset.mem_sdiff.1 hx).1⟩
        · obtain ⟨B, hB, hxB⟩ := (ih _ x).1 ⟨C, hC3, hx⟩
          exact ⟨B, List.mem_cons_of_mem _ hB, hxB⟩
      · rintro ⟨B, hB, hxB⟩
        rcases List.mem_cons.1 hB with rfl | hB2
        · by_cases hxp : x ∈ pr
          · exact ⟨B ∩ pr, List.mem_cons_self _ _, Finset.mem_inter.2 ⟨hxB, hxp⟩⟩
          · exact ⟨B \ pr, List.mem_cons_of_mem _ (List.mem_cons_self _ _),
              Finset.mem_sdiff.2 ⟨hxB, hxp⟩⟩
        · obtain ⟨C, hC, hxC⟩ := (ih _ x).2 ⟨B, hB2, hxB⟩
          exact ⟨C, List.mem_cons_of_mem _ (List.mem_cons_of_mem _ hC), hxC⟩
    · rw [if_neg hsplit]
      constructor
      · rintro ⟨C, hC, hx⟩
        rcases List.mem_cons.1 hC with rfl | hC2
        · exact ⟨C, List.mem_cons_self _ _, hx⟩
        · obtain ⟨B, hB, hxB⟩ := (ih _ x).1 ⟨C, hC2, hx⟩
          exact ⟨B, List.mem_cons_of_mem _ hB, hxB⟩
      · rintro ⟨B, hB, hxB⟩
        rcases List.mem_cons.1 hB with rfl | hB2
        · exact ⟨B, List.mem_cons_self _ _, hxB⟩
        · obtain ⟨C, hC, hxC⟩ := (ih _ x).2 ⟨B, hB2, hxB⟩
          exact ⟨C, List.mem_cons_of_mem _ hC, hxC⟩

theorem splitAll_pairwise (pr : Finset Nat) :
    ∀ p w, p.Pairwise (fun x y => Disjoint x y) →
      (splitAll pr p w).1.Pairwise (fun x y => Disjoint x y) := by
  intro p
  induction p with
  | nil =>
    intro w _
    simp [splitAll]
  | cons b rest ih =>
    intro w hpw
    rw [List.pairwise_cons] at hpw
    simp only [splitAll]
    by_cases hsplit : ¬(b ∩ pr) = ∅ ∧ ¬(b \ pr) = ∅
    · rw [if_pos hsplit]
      rw [List.pairwise_cons]
      constructor
      · intro C hC
        rcases List.mem_cons.1 hC with rfl | hC2
        · exact inter_disj_sdiff b pr
        · refine Finset.disjoint_of_subset_left Finset.inter_subset_left ?_
          obtain ⟨B, hB, hsub⟩ := splitAll_inherit pr rest _ C hC2
          exact Finset.disjoint_of_subset_right hsub (hpw.1 B hB)
      rw [List.pairwise_cons]
      constructor
      · intro C hC
        refine Finset.disjoint_of_subset_left Finset.sdiff_subset ?_
        obtain ⟨B, hB, hsub⟩ := splitAll_inherit pr rest _ C hC
        exact Finset.disjoint_of_subset_right hsub (hpw.1 B hB)
      · exact ih _ hpw.2
    · rw [if_neg hsplit]
      rw [List.pairwise_cons]
      constructor
      · intro C hC
        obtain ⟨B, hB, hsub⟩ := splitAll_inherit pr rest _ C hC
        exact Finset.disjoint_of_subset_right hsub (hpw.1 B hB)
      · exact ih _ hpw.2

theorem splitAll_stable (pr : Finset Nat) :
    ∀ p w, ∀ C ∈ (splitAll pr p w).1, C ⊆ pr ∨ C ∩ pr = ∅ := by
  intro p
  induction p with
  | nil =>
    intro w C hC
    exact absurd hC (by simp [splitAll])
  | cons b rest ih =>
    intro w C hC
    simp only [splitAll] at hC
    by_cases hsplit : ¬(b ∩ pr) = ∅ ∧ ¬(b \ pr) = ∅
    · rw [if_pos hsplit] at hC
      rcases List.mem_cons.1 hC with rfl | hC2
      · exact Or.inl Finset.inter_subset_right
      rcases List.mem_cons.1 hC2 with rfl | hC3
      · refine Or.inr (Finset.eq_empty_iff_forall_not_mem.2 ?_)
        intro x hx
        rw [Finset.mem_inter, Finset.mem_sdiff] at hx
        exact hx.1.2 hx.2
      · exact ih _ C hC3
    · rw [if_neg hsplit] at hC
      rcases List.mem_cons.1 hC with rfl | hC2
      · rw [Classical.not_and_iff_or_not_not] at hsplit
        rcases hsplit with h1 | h2
        · rw [Classical.not_not] at h1
          refine Or.inr (Finset.eq_empty_iff_forall_not_mem.2 ?_)
          intro x hx
          rw [Finset.mem_inter] at hx
          have : x ∈ C ∩ pr := Finset.mem_inter.2 hx
          rw [h1] at this
          exact absurd this (by simp)
        · rw [Classical.not_not] at h2
          refine Or.inl ?_
          intro x hx
          by_contra hxp
          have : x ∈ C \ pr := Finset.mem_sdiff.2 ⟨hx, hxp⟩
          rw [h2] at this
          exact absurd this (by simp)
      · exact ih _ C hC2

theorem splitAll_recover (pr : Finset Nat) :
    ∀ p w, ∀ X ∈ w, Deriv {Y | Y ∈ (splitAll pr p w).2} X := by
  intro p
  induction p with
  | nil =>
    intro w X hX
    exact Deriv.mem (by simpa [splitAll] using hX)
  | cons b rest ih =>
    intro w X hX
    simp only [splitAll]
    by_cases hsplit : ¬(b ∩ pr) = ∅ ∧ ¬(b \ pr) = ∅
    · rw [if_pos hsplit]
      by_cases hbw : b ∈ w
      · rw [if_pos hbw]
        by_cases hXb : X = b
        · subst hXb
          have hinter : Deriv {Y | Y ∈ (splitAll pr rest
              ((w.erase X) ++ [X ∩ pr, X \ pr])).2} (X ∩ pr) :=
            ih _ (X ∩ pr) (by
              refine List.mem_append_right _ ?_
              simp)
          have hdiff : Deriv {Y | Y ∈ (splitAll pr rest
              ((w.erase X) ++ [X ∩ pr, X \ pr])).2} (X \ pr) :=
            ih _ (X \ pr) (by
              refine List.mem_append_right _ ?_
              simp)
          have hder := Deriv.disjUnion hinter hdiff (inter_disj_sdiff X pr)
          have hXeq : (X ∩ pr) ∪ (X \ pr) = X := by
            ext x
            simp only [Finset.mem_union, Finset.mem_inter, Finset.mem_sdiff]
            tauto
          rw [hXeq] at hder
          exact hder
        · exact ih _ X (List.mem_append_left _ ((List.mem_erase_of_ne hXb).2 hX))
      · rw [if_neg hbw]
        by_cases hcard : (b ∩ pr).card ≤ (b \ pr).card
        · rw [if_pos hcard]
          exact ih _ X (List.mem_append_left _ hX)
        · rw [if_neg hcard]
          exact ih _ X (List.mem_append_left _ hX)
    · rw [if_neg hsplit]
      exact ih _ X hX

theorem splitAll_deriv (pr : Finset Nat) :
    ∀ p w, ∀ C ∈ (splitAll pr p w).1,
      Deriv ({Y | Y ∈ (splitAll pr p w).2} ∪ {Y | Y ∈ p}) C := by
  intro p
  induction p with
  | nil =>
    intro w C hC
    exact absurd hC (by simp [splitAll])
  | cons b rest ih =>
    intro w C hC
    simp only [splitAll] at hC ⊢
    by_cases hsplit : ¬(b ∩ pr) = ∅ ∧ ¬(b \ pr) = ∅
    · rw [if_pos hsplit] at hC ⊢
      by_cases hbw : b ∈ w
      · rw [if_pos hbw] at hC ⊢
        rcases List.mem_cons.1 hC with rfl | hC2
        · refine deriv_mono (Set.subset_union_left) ?_
          exact splitAll_recover pr rest _ _ (by
            refine List.mem_append_right _ ?_
            simp)
        rcases List.mem_cons.1 hC2 with rfl | hC3
        · refine deriv_mono (Set.subset_union_left) ?_
          exact splitAll_recover pr rest _ _ (by
            refine List.mem_append_right _ ?_
            simp)
        · refine deriv_mono ?_ (ih _ C hC3)
          intro Y hY
          rcases hY with hY | hY
          · exact Or.inl hY
          · exact Or.inr (List.mem_cons_of_mem _ hY)
      · rw [if_neg hbw] at hC ⊢
        have hbmem : Deriv ({Y | Y ∈ (splitAll pr rest
            (if (b ∩ pr).card ≤ (b \ pr).card then w ++ [b ∩ pr]
              else w ++ [b \ pr])).2} ∪ {Y | Y ∈ b :: rest}) b :=
          Deriv.mem (Or.inr (List.mem_cons_self _ _))
        by_cases hcard : (b ∩ pr).card ≤ (b \ pr).card
        · rw [if_pos hcard] at hC ⊢
          have hsm : Deriv ({Y | Y ∈ (splitAll pr rest (w ++ [b ∩ pr])).2} ∪
              {Y | Y ∈ b :: rest}) (b ∩ pr) := by
            refine deriv_mono (Set.subset_union_left) ?_
            exact splitAll_recover pr rest _ _ (by
              refine List.mem_append_right _ ?_
              simp)
          rcases List.mem_cons.1 hC with rfl | hC2
          · exact hsm
          rcases List.mem_cons.1 hC2 with rfl | hC3
          · have heq : b \ pr = b \ (b ∩ pr) := by
              rw [Finset.sdiff_inter_self_left]
            rw [heq]
            refine Deriv.sdiff ?_ hsm Finset.inter_subset_left
            rw [if_pos hcard] at hbmem
            exact hbmem
          · refine deriv_mono ?_ (ih _ C hC3)
            intro Y hY
            rcases hY with hY | hY
            · exact Or.inl hY
            · exact Or.inr (List.mem_cons_of_mem _ hY)
        · rw [if_neg hcard] at hC ⊢
          have hsm : Deriv ({Y | Y ∈ (splitAll pr rest (w ++ [b \ pr])).2} ∪
              {Y | Y ∈ b :: rest}) (b \ pr) := by
            refine deriv_mono (Set.subset_union_left) ?_
            exact splitAll_recover pr rest _ _ (by
              refine List.mem_append_right _ ?_
              simp)
          rcases List.mem_cons.1 hC with rfl | hC2
          · have heq : b ∩ pr = b \ (b \ pr) := by
              rw [Finset.sdiff_sdiff_self_left]
            rw [heq]
            refine Deriv.sdiff ?_ hsm Finset.sdiff_subset
            rw [if_neg hcard] at hbmem
            exact hbmem
          rcases List.mem_cons.1 hC2 with rfl | hC3
          · exact hsm
          · refine deriv_mono ?_ (ih _ C hC3)
            intro Y hY
            rcases hY with hY | hY
            · exact Or.inl hY
            · exact Or.inr (List.mem_cons_of_mem _ hY)
    · rw [if_neg hsplit] at hC ⊢
      rcases List.mem_cons.1 hC with rfl | hC2
      · exact Deriv.mem (Or.inr (List.mem_cons_self _ _))
      · refine deriv_mono ?_ (ih _ C hC2)
        intro Y hY
        rcases hY with hY | hY
        · exact Or.inl hY
        · exact Or.inr (List.mem_cons_of_mem _ hY)

theorem refineSyms_inherit (tr : List ((Nat × Char) × Nat)) (n : Nat)
    (cur : Finset Nat) :
    ∀ syms p w, ∀ C ∈ (refineSyms tr n cur syms p w).1, ∃ B ∈ p, C ⊆ B := by
  intro syms
  induction syms with
  | nil =>
    intro p w C hC
    exact ⟨C, by simpa [refineSyms] using hC, Finset.Subset.refl _⟩
  | cons a syms ih =>
    intro p w C hC
    simp only [refineSyms] at hC
    obtain ⟨B1, hB1, hsub1⟩ := ih _ _ C hC
    obtain ⟨B, hB, hsub⟩ := splitAll_inherit (preds tr n cur a) p w B1 hB1
    exact ⟨B, hB, hsub1.trans hsub⟩

theorem refineSyms_nonempty (tr : List ((Nat × Char) × Nat)) (n : Nat)
    (cur : Finset Nat) :
    ∀ syms p w, (∀ B ∈ p, B ≠ ∅) →
      ∀ C ∈ (refineSyms tr n cur syms p w).1, C ≠ ∅ := by
  intro syms
  induction syms with
  | nil =>
    intro p w hne C hC
    exact hne C (by simpa [refineSyms] using hC)
  | cons a syms ih =>
    intro p w hne C hC
    simp only [refineSyms] at hC
    exact ih _ _ (splitAll_nonempty (preds tr n cur a) p w hne) C hC

theorem refineSyms_pairwise (tr : List ((Nat × Char) × Nat)) (n : Nat)
    (cur : Finset Nat) :
    ∀ syms p w, p.Pairwise (fun x y => Disjoint x y) →
      (refineSyms tr n cur syms p w).1.Pairwise (fun x y => Disjoint x y) := by
  intro syms
  induction syms with
  | nil =>
    intro p w hpw
    simpa [refineSyms] using hpw
  | cons a syms ih =>
    intro p w hpw
    simp only [refineSyms]
    exact ih _ _ (splitAll_pairwise (preds tr n cur a) p w hpw)

theorem refineSyms_cover (tr : List ((Nat × Char) × Nat)) (n : Nat)
    (cur : Finset Nat) :
    ∀ syms p w x, (∃ C ∈ (refineSyms tr n cur syms p w).1, x ∈ C) ↔
      (∃ B ∈ p, x ∈ B) := by
  intro syms
  induction syms with
  | nil =>
    intro p w x
    simp [refineSyms]
  | cons a syms ih =>
    intro p w x
    simp only [refineSyms]
    rw [ih, splitAll_cover]

theorem refineSyms_recover (tr : List ((Nat × Char) × Nat)) (n : Nat)
    (cur : Finset Nat) :
    ∀ syms p w, ∀ X ∈ w, Deriv {Y | Y ∈ (refineSyms tr n cur syms p w).2} X := by
  intro syms
  induction syms with
  | nil =>
    intro p w X hX
    exact Deriv.mem (by simpa [refineSyms] using hX)
  | cons a syms ih =>
    intro p w X hX
    simp only [refineSyms]
    refine deriv_trans ?_ (splitAll_recover (preds tr n cur a) p w X hX)
    intro Y hY
    exact ih _ _ Y hY

theorem refineSyms_deriv (tr : List ((Nat × Char) × Nat)) (n : Nat)
    (cur : Finset Nat) :
    ∀ syms p w, ∀ C ∈ (refineSyms tr n cur syms p w).1,
      Deriv ({Y | Y ∈ (refineSyms tr n cur syms p w).2} ∪ {Y | Y ∈ p}) C := by
  intro syms
  induction syms with
  | nil =>
    intro p w C hC
    exact Deriv.mem (Or.inr (by simpa [refineSyms] using hC))
  | cons a syms ih =>
    intro p w C hC
    simp only [refineSyms] at hC ⊢
    refine deriv_trans ?_ (ih _ _ C hC)
    intro Y hY
    rcases hY with hY | hY
    · exact Deriv.mem (Or.inl hY)
    · refine deriv_trans ?_ (splitAll_deriv (preds tr n cur a) p w Y hY)
      intro Z hZ
      rcases hZ with hZ | hZ
      · exact deriv_mono (Set.subset_union_left)
          (refineSyms_recover tr n cur syms _ _ Z hZ)
      · exact Deriv.mem (Or.inr hZ)

theorem refineSyms_stable (tr : List ((Nat × Char) × Nat)) (n : Nat)
    (cur : Finset Nat) :
    ∀ syms p w, ∀ C ∈ (refineSyms tr n cur syms p w).1,
      ∀ a ∈ syms, IsStable tr n C cur a := by
  intro syms
  induction syms with
  | nil =>
    intro p w C hC a ha
    exact absurd ha (by simp)
  | cons a syms ih =>
    intro p w C hC b hb
    simp only [refineSyms] at hC
    rcases List.mem_cons.1 hb with rfl | hb2
    · obtain ⟨B1, hB1, hsub1⟩ := refineSyms_inherit tr n cur syms _ _ C hC
      have hstab := splitAll_stable (preds tr n cur b) p w B1 hB1
      exact isStable_anti hsub1 hstab
    · exact ih _ _ C hC b hb2

theorem refineLoop_spec (tr : List ((Nat × Char) × Nat)) (n : Nat)
    (alph : List Char) :
    ∀ fuel p w p2, refineLoop tr n alph fuel p w = some p2 →
      (∀ B ∈ p, B ≠ ∅) → p.Pairwise (fun x y => Disjoint x y) →
      ∀ H : Set (Finset Nat),
        (∀ C ∈ p, ∀ X ∈ H, ∀ a ∈ alph, IsStable tr n C X a) →
        (∀ B ∈ p, Deriv ({Y | Y ∈ w} ∪ H) B) →
      (∀ B ∈ p2, B ≠ ∅) ∧ p2.Pairwise (fun x y => Disjoint x y) ∧
      (∀ x, (∃ C ∈ p2, x ∈ C) ↔ (∃ B ∈ p, x ∈ B)) ∧
      (∀ C ∈ p2, ∃ B ∈ p, C ⊆ B) ∧
      (∀ C ∈ p2, ∀ B ∈ p2, ∀ a ∈ alph, IsStable tr n C B a) := by
  intro fuel
  induction fuel with
  | zero =>
    intro p w p2 hr hne hpw H hstab hder
    cases w with
    | nil =>
      have hp2 : p = p2 := by
        have := hr
        simpa [refineLoop] using this
      subst hp2
      refine ⟨hne, hpw, fun x => Iff.rfl, fun C hC => ⟨C, hC, Finset.Subset.refl _⟩, ?_⟩
      intro C hC B hB a ha
      refine deriv_stable (fun X hX b hb => hstab C hC X hX b hb) ?_ a ha
      refine deriv_trans ?_ (hder B hB)
      intro Y hY
      rcases hY with hY | hY
      · exact absurd hY (by simp)
      · exact Deriv.mem hY
    | cons S w2 => exact absurd hr (by simp [refineLoop])
  | succ fuel ih =>
    intro p w p2 hr hne hpw H hstab hder
    cases w with
    | nil =>
      have hp2 : p = p2 := by
        have := hr
        simpa [refineLoop] using this
      subst hp2
      refine ⟨hne, hpw, fun x => Iff.rfl, fun C hC => ⟨C, hC, Finset.Subset.refl _⟩, ?_⟩
      intro C hC B hB a ha
      refine deriv_stable (fun X hX b hb => hstab C hC X hX b hb) ?_ a ha
      refine deriv_trans ?_ (hder B hB)
      intro Y hY
      rcases hY with hY | hY
      · exact absurd hY (by simp)
      · exact Deriv.mem hY
    | cons S w2 =>
      simp only [refineLoop] at hr
      have hres := ih (refineSyms tr n S alph p w2).1 (refineSyms tr n S alph p w2).2
        p2 hr
        (refineSyms_nonempty tr n S alph p w2 hne)
        (refineSyms_pairwise tr n S alph p w2 hpw)
        (H ∪ {S})
        ?_ ?_
      · obtain ⟨c1, c2, c3, c4, c5⟩ := hres
        refine ⟨c1, c2, ?_, ?_, c5⟩
        · intro x
          rw [c3 x, refineSyms_cover]
        · intro C hC
          obtain ⟨B1, hB1, hsub1⟩ := c4 C hC
          obtain ⟨B, hB, hsub⟩ := refineSyms_inherit tr n S alph p w2 B1 hB1
          exact ⟨B, hB, hsub1.trans hsub⟩
      · intro C hC X hX a ha
        rcases hX with hX | hX
        · obtain ⟨B, hB, hsub⟩ := refineSyms_inherit tr n S alph p w2 C hC
          exact isStable_anti hsub (hstab B hB X hX a ha)
        · rw [Set.mem_singleton_iff] at hX
          subst hX
          exact refineSyms_stable tr n X alph p w2 C hC a ha
      · intro B hB
        refine deriv_trans ?_ (refineSyms_deriv tr n S alph p w2 B hB)
        intro Y hY
        rcases hY with hY | hY
        · exact Deriv.mem (Or.inl hY)
        · refine deriv_trans ?_ (hder Y hY)
          intro Z hZ
          rcases hZ with hZ | hZ
          · rcases List.mem_cons.1 hZ with rfl | hZ2
            · exact Deriv.mem (Or.inr (Or.inr rfl))
            · exact deriv_mono (Set.subset_union_left)
                (refineSyms_recover tr n S alph p w2 Z hZ2)
          · exact Deriv.mem (Or.inr (Or.inl hZ))

/-! ### The quotient automaton built by `minimize_dfa` -/

theorem smap_some {p : List (Finset Nat)} {q i : Nat} (h : smap p q = some i) :
    ∃ hi : i < p.length, q ∈ p.get ⟨i, hi⟩ := by
  induction p generalizing i with
  | nil => simp [smap] at h
  | cons b rest ih =>
    rw [smap] at h
    cases hr : smap rest q with
    | some j =>
      rw [hr] at h
      cases h
      obtain ⟨hj, hmem⟩ := ih hr
      exact ⟨by simpa using Nat.succ_lt_succ hj, hmem⟩
    | none =>
      rw [hr] at h
      by_cases hb : q ∈ b
      · rw [if_pos hb] at h
        cases h
        exact ⟨by simp, hb⟩
      · rw [if_neg hb] at h
        exact absurd h (by simp)

theorem smap_of_mem {p : List (Finset Nat)}
    (hpw : p.Pairwise (fun x y => Disjoint x y)) {q i : Nat}
    (hi : i < p.length) (hmem : q ∈ p.get ⟨i, hi⟩) : smap p q = some i := by
  induction p generalizing i with
  | nil => simp at hi
  | cons b rest ih =>
    rw [List.pairwise_cons] at hpw
    rw [smap]
    match i with
    | 0 =>
      have hqb : q ∈ b := hmem
      have hnone : smap rest q = none := by
        cases hr : smap rest q with
        | none => rfl
        | some j =>
          obtain ⟨hj, hmemj⟩ := smap_some hr
          have hdisj := hpw.1 _ (List.get_mem rest j hj)
          exact absurd hmemj (Finset.disjoint_left.1 hdisj hqb)
      rw [hnone, if_pos hqb]
    | j + 1 =>
      have hj : j < rest.length := by simpa using hi
      have := ih hpw.2 hj hmem
      rw [this]

theorem smap_isSome_of_mem {p : List (Finset Nat)} {q : Nat} {B : Finset Nat}
    (hB : B ∈ p) (hq : q ∈ B) : (smap p q).isSome := by
  induction p with
  | nil => exact absurd hB (by simp)
  | cons b rest ih =>
    rw [smap]
    cases hr : smap rest q with
    | some j => simp
    | none =>
      rcases List.mem_cons.1 hB with rfl | hB2
      · rw [if_pos hq]
        simp
      · have := ih hB2
        rw [hr] at this
        simp at this

theorem foldl_dinsert_lookup (f : ((Nat × Char) × Nat) → Nat × Char)
    (g : ((Nat × Char) × Nat) → Nat) :
    ∀ (l : List ((Nat × Char) × Nat)) (acc : List ((Nat × Char) × Nat))
      (k : Nat × Char),
      tlookup (l.foldl (fun acc e => dinsert acc (f e) (g e)) acc) k =
        match l.reverse.find? (fun e => f e = k) with
        | some e => some (g e)
        | none => tlookup acc k := by
  intro l
  induction l with
  | nil =>
    intro acc k
    simp
  | cons e rest ih =>
    intro acc k
    rw [List.foldl_cons, ih, List.reverse_cons, List.find?_append]
    cases hr : rest.reverse.find? (fun e => f e = k) with
    | some e2 => simp [Option.orElse]
    | none =>
      simp only [Option.orElse, Option.none_orElse]
      by_cases hk : f e = k
      · rw [List.find?_cons_of_pos _ (by simpa using hk)]
        show tlookup (dinsert acc (f e) (g e)) k = some (g e)
        rw [tlookup_dinsert, if_pos hk.symm]
      · rw [List.find?_cons_of_neg _ (by simpa using hk)]
        show tlookup (dinsert acc (f e) (g e)) k = tlookup acc k
        rw [tlookup_dinsert, if_neg (fun h2 => hk h2.symm)]

theorem minimize_preserves (alph : List Char) (d : Dfa) (fuel : Nat) (md : Dfa)
    (hknd : (d.transitions.map (fun e => e.1)).Nodup)
    (hend : ∀ e ∈ d.transitions, e.1.1 < d.states ∧ e.2 < d.states)
    (hfinR : ∀ i ∈ d.final_states, i < d.states)
    (hinit : d.initial < d.states)
    (hmin : minimize_dfa alph d fuel = some md) :
    ∀ w, simulate_core alph md w = simulate_core alph d w := by
  obtain ⟨p, hploop, hsm1, hsm2, hsm3, hmd⟩ := minimize_ok alph d fuel md hmin
  set p0 := [Finset.range d.states \ d.final_states, d.final_states].filter
    (fun x => ¬x = ∅) with hp0def
  have hp0ne : ∀ B ∈ p0, B ≠ ∅ := by
    intro B hB
    have := List.of_mem_filter hB
    simpa using this
  have hp0sub : ∀ B ∈ p0,
      B = Finset.range d.states \ d.final_states ∨ B = d.final_states := by
    intro B hB
    have := List.mem_of_mem_filter hB
    simpa using this
  have hp0pw : p0.Pairwise (fun x y => Disjoint x y) := by
    refine List.Pairwise.filter _ ?_
    rw [List.pairwise_cons]
    refine ⟨?_, by simp⟩
    intro B hB
    simp at hB
    subst hB
    exact Finset.sdiff_disjoint
  obtain ⟨hne2, hpw2, hcover2, hinh2, hstab2⟩ :=
    refineLoop_spec d.transitions d.states alph fuel p0 p0 p hploop hp0ne hp0pw ∅
      (fun C _ X hX => absurd hX (by simp))
      (fun B hB => Deriv.mem (Or.inl hB))
  have hcovp : ∀ q, q < d.states → ∃ B ∈ p, q ∈ B := by
    intro q hq
    refine (hcover2 q).2 ?_
    by_cases hqF : q ∈ d.final_states
    · refine ⟨d.final_states, ?_, hqF⟩
      rw [hp0def, List.mem_filter]
      refine ⟨by simp, ?_⟩
      simp only [decide_eq_true_eq]
      exact fun h0 => by
        rw [h0] at hqF
        exact absurd hqF (by simp)
    · refine ⟨Finset.range d.states \ d.final_states, ?_, ?_⟩
      · rw [hp0def, List.mem_filter]
        refine ⟨by simp, ?_⟩
        simp only [decide_eq_true_eq]
        intro h0
        have : q ∈ Finset.range d.states \ d.final_states :=
          Finset.mem_sdiff.2 ⟨Finset.mem_range.2 hq, hqF⟩
        rw [h0] at this
        exact absurd this (by simp)
      · exact Finset.mem_sdiff.2 ⟨Finset.mem_range.2 hq, hqF⟩
  have hhomog : ∀ B ∈ p, B ⊆ d.final_states ∨ Disjoint B d.final_states := by
    intro B hB
    obtain ⟨B0, hB0, hsub⟩ := hinh2 B hB
    rcases hp0sub B0 hB0 with rfl | rfl
    · refine Or.inr (Finset.disjoint_left.2 ?_)
      intro x hxB hxF
      exact (Finset.mem_sdiff.1 (hsub hxB)).2 hxF
    · exact Or.inl hsub
  have hsmTot : ∀ q, q < d.states → ∃ bq, smap p q = some bq := by
    intro q hq
    obtain ⟨B, hB, hqB⟩ := hcovp q hq
    exact Option.isSome_iff_exists.1 (smap_isSome_of_mem hB hqB)
  have hcons : ∀ q1 q2 bq c t1 t2, c ∈ alph →
      smap p q1 = some bq → smap p q2 = some bq →
      tlookup d.transitions (q1, c) = some t1 →
      tlookup d.transitions (q2, c) = some t2 →
      smap p t1 = smap p t2 := by
    intro q1 q2 bq c t1 t2 hc h1 h2 hl1 hl2
    obtain ⟨hb, hq1⟩ := smap_some h1
    obtain ⟨hb2, hq2⟩ := smap_some h2
    have ht1n : t1 < d.states := (hend _ (tlookup_mem hl1)).2
    obtain ⟨bt, hbt⟩ := hsmTot t1 ht1n
    obtain ⟨hbtlt, ht1mem⟩ := smap_some hbt
    have hstab := hstab2 _ (List.get_mem p bq hb) _ (List.get_mem p bt hbtlt) c hc
    have hq1p : q1 ∈ preds d.transitions d.states (p.get ⟨bt, hbtlt⟩) c :=
      mem_preds_iff.2 ⟨(hend _ (tlookup_mem hl1)).1, t1, hl1, ht1mem⟩
    have hsubs : p.get ⟨bq, hb⟩ ⊆ preds d.transitions d.states (p.get ⟨bt, hbtlt⟩) c := by
      rcases hstab with h | h
      · exact h
      · exact absurd h (by
          rw [Finset.eq_empty_iff_forall_not_mem]
          push_neg
          exact ⟨q1, Finset.mem_inter.2 ⟨hq1, hq1p⟩⟩)
    have hq2p := hsubs hq2
    rw [mem_preds_iff] at hq2p
    obtain ⟨-, t2a, hl2a, ht2mem⟩ := hq2p
    rw [hl2] at hl2a
    cases hl2a
    rw [hbt, smap_of_mem hpw2 hbtlt ht2mem]
  set NT := d.transitions.foldl
    (fun acc e => dinsert acc ((smap p e.1.1).getD 0, e.1.2) ((smap p e.2).getD 0))
    [] with hNT
  have hNTchar : ∀ k, tlookup NT k =
      match d.transitions.reverse.find?
        (fun e => ((smap p e.1.1).getD 0, e.1.2) = k) with
      | some e => some ((smap p e.2).getD 0)
      | none => none := by
    intro k
    rw [hNT, foldl_dinsert_lookup (fun e => ((smap p e.1.1).getD 0, e.1.2))
      (fun e => (smap p e.2).getD 0) d.transitions [] k]
    cases d.transitions.reverse.find? (fun e => ((smap p e.1.1).getD 0, e.1.2) = k) with
    | some e => rfl
    | none => rfl
  have hwalk : ∀ w q bq, q < d.states → smap p q = some bq →
      walk alph NT (d.final_states.image (fun f => (smap p f).getD 0)) bq w =
      walk alph d.transitions d.final_states q w := by
    intro w
    induction w with
    | nil =>
      intro q bq hq hbq
      show decide (bq ∈ d.final_states.image (fun f => (smap p f).getD 0)) =
        decide (q ∈ d.final_states)
      rw [decide_eq_decide]
      constructor
      · intro hmem
        obtain ⟨f, hfF, hfeq⟩ := Finset.mem_image.1 hmem
        obtain ⟨bf, hbf⟩ := Option.isSome_iff_exists.1 (hsm2 f hfF)
        rw [hbf] at hfeq
        simp only [Option.getD_some] at hfeq
        subst hfeq
        obtain ⟨hblt, hfmem⟩ := smap_some hbf
        obtain ⟨hblt2, hqmem⟩ := smap_some hbq
        rcases hhomog _ (List.get_mem p bf hblt) with hsub | hdisj
        · exact hsub hqmem
        · exact absurd hfF (Finset.disjoint_left.1 hdisj hfmem)
      · intro hmem
        refine Finset.mem_image.2 ⟨q, hmem, ?_⟩
        rw [hbq]
        rfl
    | cons c w2 ih =>
      intro q bq hq hbq
      rw [walk, walk]
      by_cases hc : c ∈ alph
      · rw [if_pos hc, if_pos hc]
        cases hl : tlookup d.transitions (q, c) with
        | some t =>
          have htn : t < d.states := (hend _ (tlookup_mem hl)).2
          obtain ⟨bt, hbt⟩ := hsmTot t htn
          have hNTl : tlookup NT (bq, c) = some bt := by
            rw [hNTchar]
            cases hf : d.transitions.reverse.find?
                (fun e => ((smap p e.1.1).getD 0, e.1.2) = (bq, c)) with
            | none =>
              exfalso
              rw [List.find?_eq_none] at hf
              refine hf ((q, c), t) (List.mem_reverse.2 (tlookup_mem hl)) ?_
              simp [hbq]
            | some e1 =>
              have he1mem : e1 ∈ d.transitions :=
                List.mem_reverse.1 (List.mem_of_find?_eq_some hf)
              have hkey := List.find?_some hf
              simp only [decide_eq_true_eq, Prod.mk.injEq] at hkey
              obtain ⟨bq1, hbq1⟩ := Option.isSome_iff_exists.1 (hsm1 e1 he1mem).1
              have hbq1' : smap p e1.1.1 = some bq := by
                rw [hbq1]
                rw [hbq1] at hkey
                simp only [Option.getD_some] at hkey
                rw [hkey.1]
              have he1' : ((e1.1.1, c), e1.2) ∈ d.transitions := by
                have h2 := hkey.2
                rw [← h2]
                simpa only [Prod.mk.eta] using he1mem
              have hlq1 : tlookup d.transitions (e1.1.1, c) = some e1.2 :=
                mem_tlookup hknd he1'
              have hsame := hcons e1.1.1 q bq c e1.2 t hc hbq1' hbq hlq1 hl
              rw [hbt] at hsame
              show some ((smap p e1.2).getD 0) = some bt
              rw [hsame]
              rfl
          rw [hNTl]
          exact ih t bt htn hbt
        | none =>
          have hNTl : tlookup NT (bq, c) = none := by
            rw [hNTchar]
            cases hf : d.transitions.reverse.find?
                (fun e => ((smap p e.1.1).getD 0, e.1.2) = (bq, c)) with
            | none => rfl
            | some e1 =>
              exfalso
              have he1mem : e1 ∈ d.transitions :=
                List.mem_reverse.1 (List.mem_of_find?_eq_some hf)
              have hkey := List.find?_some hf
              simp only [decide_eq_true_eq, Prod.mk.injEq] at hkey
              obtain ⟨bq1, hbq1⟩ := Option.isSome_iff_exists.1 (hsm1 e1 he1mem).1
              have hbq1' : smap p e1.1.1 = some bq := by
                rw [hbq1]
                rw [hbq1] at hkey
                simp only [Option.getD_some] at hkey
                rw [hkey.1]
              have he1' : ((e1.1.1, c), e1.2) ∈ d.transitions := by
                have h2 := hkey.2
                rw [← h2]
                simpa only [Prod.mk.eta] using he1mem
              have hlq1 : tlookup d.transitions (e1.1.1, c) = some e1.2 :=
                mem_tlookup hknd he1'
              have ht1n : e1.2 < d.states := (hend _ he1').2
              obtain ⟨bt1, hbt1⟩ := hsmTot e1.2 ht1n
              obtain ⟨hbt1lt, ht1mem⟩ := smap_some hbt1
              obtain ⟨hblt, hq1mem⟩ := smap_some hbq1'
              obtain ⟨hblt2, hqmem⟩ := smap_some hbq
              have hstab := hstab2 _ (List.get_mem p bq hblt) _
                (List.get_mem p bt1 hbt1lt) c hc
              have hq1p : e1.1.1 ∈ preds d.transitions d.states
                  (p.get ⟨bt1, hbt1lt⟩) c :=
                mem_preds_iff.2 ⟨(hend _ he1').1, e1.2, hlq1, ht1mem⟩
              have hsubs : p.get ⟨bq, hblt⟩ ⊆ preds d.transitions d.states
                  (p.get ⟨bt1, hbt1lt⟩) c := by
                rcases hstab with h | h
                · exact h
                · exact absurd h (by
                    rw [Finset.eq_empty_iff_forall_not_mem]
                    push_neg
                    exact ⟨e1.1.1, Finset.mem_inter.2 ⟨hq1mem, hq1p⟩⟩)
              have hqp := hsubs hqmem
              rw [mem_preds_iff] at hqp
              obtain ⟨-, t2a, hl2a, -⟩ := hqp
              rw [hl] at hl2a
              exact absurd hl2a (by simp)
          rw [hNTl]
      · rw [if_neg hc, if_neg hc]
  intro w
  obtain ⟨binit, hbinit⟩ := Option.isSome_iff_exists.1 hsm3
  unfold simulate_core
  rw [hmd]
  show walk alph NT (d.final_states.image (fun f => (smap p f).getD 0))
    ((smap p d.initial).getD 0) w = walk alph d.transitions d.final_states d.initial w
  rw [hbinit]
  show walk alph NT (d.final_states.image (fun f => (smap p f).getD 0)) binit w =
    walk alph d.transitions d.final_states d.initial w
  exact hwalk w d.initial binit hinit hbinit

/-- C1: Minimization preserves the accepted language: for every regular
expression compiled by the pipeline (`parse_regex`, then `construct_dfa`,
then `minimize_dfa`) and every input string `w`, simulating `w` on the
original automaton and on the minimized automaton yields the same boolean. -/
theorem c1_minimization_preserves (regex : List Char) (f1 f2 : Nat)
    (comp : Compiled) (h : process regex f1 f2 = .ok comp) :
    ∀ w, simulate_core comp.alphabet comp.minimized w =
      simulate_core comp.alphabet comp.dfa w := by
  obtain ⟨pr, hpr, hcon, hmin, ha, -, -, -⟩ := process_ok regex f1 f2 comp h
  have halphnd : pr.alphabet.Nodup := by
    obtain ⟨t, np2, -, hal, -, -⟩ := parse_ok regex pr hpr
    rw [hal]
    exact List.nodup_dedup _
  obtain ⟨endP, seen, -, hst, hin0, -, hlen, -, hknd, hend, -, hfins, -⟩ :=
    construct_invariants pr.alphabet pr.table pr.followpos
      (attrsOf pr.root).firstpos f1 comp.dfa halphnd hcon
  have hfinR : ∀ i ∈ comp.dfa.final_states, i < comp.dfa.states := by
    intro i hi
    rw [hst]
    exact ((hfins i).1 hi).1
  have hinit : comp.dfa.initial < comp.dfa.states := by
    rw [hin0, hst]
    exact hlen
  intro w
  rw [ha]
  exact minimize_preserves pr.alphabet comp.dfa f2 comp.minimized
    hknd hend hfinR hinit hmin w

/-- Witness for C1 at the concrete expression `"a"` and input `"a"`. -/
theorem c1_witness :
    simulate_core compA.alphabet compA.minimized ['a'] =
      simulate_core compA.alphabet compA.dfa ['a'] :=
  c1_minimization_preserves "a".toList 100 100 compA (by rfl) ['a']
